import Mathlib

/-!
Verification development for the wind-field / snow-accumulation core of the
repository (snow deposition with a shared mass budget, ground height-field,
wind trail segments, stickiness rule).

All numeric code is embedded over the rationals: the JavaScript source uses
IEEE doubles, and every claim under study is stated modulo floating-point
tolerance, so exact rational arithmetic is the faithful idealization.
Transcendental library calls (Math.sin, Math.cos, Math.hypot, Math.exp) and
the blended-sine helper noise1d are abstracted as oracle function parameters;
Math.random is abstracted as an explicit random-value parameter.  Everything
else (control flow, accumulators, clamping, list updates) is translated
statement by statement from the source.
-/

/-- JS helper clamp(min, max, value) = Math.min(max, Math.max(min, value))
from src/render/layers/utils.ts. -/
def clamp (lo hi v : ℚ) : ℚ := min hi (max lo v)

/-- Integer version of clamp, used where the source clamps array indices. -/
def clampI (lo hi v : ℤ) : ℤ := min hi (max lo v)

/-- JS Math.round: round half toward positive infinity. -/
def roundJS (x : ℚ) : ℤ := ⌊x + 1/2⌋

/-- JS Math.sign. -/
def signQ (x : ℚ) : ℚ := if x < 0 then -1 else if 0 < x then 1 else 0

/-- smoothstep from src/render/layers/utils.ts (exact over the rationals). -/
def smoothstep (edge0 edge1 x : ℚ) : ℚ :=
  let t := clamp 0 1 ((x - edge0) / (edge1 - edge0))
  t * t * (3 - 2 * t)

/-- The in-place update pattern bins[i] += a used throughout the source.
List.set leaves the list unchanged when the index is out of range, matching
the fact that the source only ever bumps indices it has checked. -/
def binAdd (l : List ℚ) (i : ℕ) (a : ℚ) : List ℚ :=
  l.set i (l.getD i 0 + a)

/-- Constants from the snow context module. -/
def SNOW_DEFAULT_MAX_DEPTH : ℚ := 36

def HOUSE_SNOW_BINS : ℕ := 20

def TREE_SNOW_BINS : ℕ := 12

def GROUND_SNOW_BINS : ℕ := 220

def SNOW_BUDGET_MAX : ℚ := 32000

/-- The mutable snow context fields the budgeted deposition paths touch:
the shared budget pool, its cap, the ground height-field bins, the derived
ground depth, and the fields addToGround reads to pick its center bin. -/
structure Ctx where
  budget : ℚ
  budgetMax : ℚ
  ground : List ℚ
  groundDepth : ℚ
  groundWindX : ℚ
  groundWindMax : ℚ
  width : ℚ
deriving Repr, DecidableEq

/-- consumeBudget from src/render/layers.ts: grants min(amount, max(0, budget))
and debits the granted amount; returns the grant and the new context. -/
def consumeBudget (amount : ℚ) (ctx : Ctx) : ℚ × Ctx :=
  let available := max 0 ctx.budget
  let use := min amount available
  (use, { ctx with budget := ctx.budget - use })

/-- refundBudget from src/render/layers.ts: credits the amount back, clamped
so the pool stays within [0, budgetMax]; no-op for non-positive amounts. -/
def refundBudget (amount : ℚ) (ctx : Ctx) : Ctx :=
  if amount ≤ 0 then ctx
  else { ctx with budget := clamp 0 ctx.budgetMax (ctx.budget + amount) }

/-- A raw budget-pool operation, as named in the spec. -/
inductive BudgetOp where
  | consume (amount : ℚ)
  | refund (amount : ℚ)
deriving Repr, DecidableEq

/-- Apply one budget operation to the context, discarding the grant. -/
def applyBudgetOp (ctx : Ctx) (op : BudgetOp) : Ctx :=
  match op with
  | .consume a => (consumeBudget a ctx).2
  | .refund a => refundBudget a ctx

/-- Run a list of budget operations left to right. -/
def runBudgetOps (ctx : Ctx) (ops : List BudgetOp) : Ctx :=
  ops.foldl applyBudgetOp ctx

/-- Every consume in the list requests a non-negative amount (deposition and
erosion code guard their calls so only such requests reach consumeBudget). -/
def consumesNonneg (ops : List BudgetOp) : Bool :=
  ops.all fun op =>
    match op with
    | .consume a => decide (0 ≤ a)
    | .refund _ => true

-- Basic budget lemmas

theorem consumeBudget_budget (amount : ℚ) (ctx : Ctx) :
    ((consumeBudget amount ctx).2).budget
      = ctx.budget - min amount (max 0 ctx.budget) := rfl

theorem consumeBudget_fst (amount : ℚ) (ctx : Ctx) :
    (consumeBudget amount ctx).1 = min amount (max 0 ctx.budget) := rfl

theorem refundBudget_budget (amount : ℚ) (ctx : Ctx) :
    (refundBudget amount ctx).budget
      = if amount ≤ 0 then ctx.budget
        else clamp 0 ctx.budgetMax (ctx.budget + amount) := by
  unfold refundBudget
  split <;> rfl

theorem consumeBudget_nonneg (amount : ℚ) (ctx : Ctx) (h : 0 ≤ ctx.budget) :
    0 ≤ ((consumeBudget amount ctx).2).budget := by
  rw [consumeBudget_budget, max_eq_right h]
  have : min amount ctx.budget ≤ ctx.budget := min_le_right _ _
  linarith

theorem consumeBudget_le (amount : ℚ) (ctx : Ctx) (h : 0 ≤ amount) :
    ((consumeBudget amount ctx).2).budget ≤ ctx.budget := by
  rw [consumeBudget_budget]
  have : 0 ≤ min amount (max 0 ctx.budget) := le_min h (le_max_left _ _)
  linarith

theorem refundBudget_mem (amount : ℚ) (ctx : Ctx)
    (h0 : 0 ≤ ctx.budget) (h1 : ctx.budget ≤ ctx.budgetMax) :
    0 ≤ (refundBudget amount ctx).budget ∧
      (refundBudget amount ctx).budget ≤ ctx.budgetMax := by
  rw [refundBudget_budget]
  split
  · exact ⟨h0, h1⟩
  · rename_i h
    push_neg at h
    constructor
    · exact le_min (by linarith [le_max_left (0:ℚ) (ctx.budget + amount)])
        (le_max_left 0 (ctx.budget + amount)) |>.trans (le_refl _)
    · exact min_le_left _ _

theorem consumeBudget_budgetMax (amount : ℚ) (ctx : Ctx) :
    ((consumeBudget amount ctx).2).budgetMax = ctx.budgetMax := rfl

theorem refundBudget_budgetMax (amount : ℚ) (ctx : Ctx) :
    (refundBudget amount ctx).budgetMax = ctx.budgetMax := by
  unfold refundBudget
  split <;> rfl

-- Ground height-field deposition (addToGround in src/render/layers.ts)

/-- Targets of one radius ring of the addToGround spreading loop: the bin at
idxCenter - radius when that is in range, and the bin at idxCenter + radius
when radius is nonzero and that is in range. -/
def ringTargets (len idxCenter radius : ℕ) : List ℕ :=
  (if radius ≤ idxCenter then [idxCenter - radius] else []) ++
    (if radius ≠ 0 ∧ idxCenter + radius < len then [idxCenter + radius] else [])

/-- Inner for-loop of addToGround over one ring: each target bin t has a
per-bin dune cap depthCap * (1.1 + dune t * 0.7) where dune t abstracts
0.5 + 0.5 * noise1d(t * 0.35 + 7.2); the bin takes min(room, share) and the
running remainder drops by the same amount. -/
def capF (dune : ℕ → ℚ) (depthCap : ℚ) (t : ℕ) : ℚ :=
  depthCap * (11/10 + dune t * (7/10))

def depositTargets (dune : ℕ → ℚ) (depthCap share : ℚ) :
    List ℕ → List ℚ → ℚ → List ℚ × ℚ
  | [], bins, remaining => (bins, remaining)
  | t :: ts, bins, remaining =>
    let room := max 0 (capF dune depthCap t - bins.getD t 0)
    let add := min room share
    depositTargets dune depthCap share ts (binAdd bins t add) (remaining - add)

/-- The while loop of addToGround: while remaining > 0 and radius < len,
deposit one ring, then advance the radius and decay the remainder by the
layer factor 0.55.  fuel = len - radius bounds the iteration count. -/
def addToGroundAux (dune : ℕ → ℚ) (depthCap : ℚ) (len idxCenter : ℕ) :
    ℕ → ℕ → List ℚ → ℚ → List ℚ × ℚ
  | _, 0, bins, remaining => (bins, remaining)
  | radius, fuel + 1, bins, remaining =>
    if remaining ≤ 0 then (bins, remaining)
    else
      let targets := ringTargets len idxCenter radius
      let share := remaining / max 1 targets.length
      let p := depositTargets dune depthCap share targets bins remaining
      addToGroundAux dune depthCap len idxCenter (radius + 1) fuel p.1 (p.2 * (11/20))

/-- Center-bin choice of addToGround: the middle bin, or a bin picked from
posX scaled into the bin range, shifted by up to four bins of ground wind
bias, clamped into range. -/
def groundCenter (posX : Option ℚ) (ctx : Ctx) (len : ℕ) : ℕ :=
  let idxCenter0 : ℤ :=
    match posX with
    | none => (len : ℤ) / 2
    | some px => clampI 0 ((len : ℤ) - 1) ⌊(px / ctx.width) * ((len : ℚ) - 1)⌋
  let windBias :=
    if 0 < ctx.groundWindMax then clamp (-1) 1 (ctx.groundWindX / ctx.groundWindMax)
    else 0
  (clampI 0 ((len : ℤ) - 1) (idxCenter0 + roundJS (windBias * 4))).toNat

/-- addToGround from src/render/layers.ts.  Returns the amount it reports as
added together with the updated context.  When the ground bin list is empty
the depth scalar itself acts as the store with cap depthCap * 1.5; otherwise
the amount is spread in rings around a center bin chosen from posX, the
ground wind bias, and the bin count, and the reported amount is
amount - remaining, where remaining has also been decayed by the 0.55 layer
factor each ring (so the report can exceed what the bins actually absorbed). -/
def addToGround (dune : ℕ → ℚ) (amount depthCap : ℚ) (posX : Option ℚ)
    (ctx : Ctx) : ℚ × Ctx :=
  if amount ≤ 0 then (0, ctx)
  else if ctx.ground.length = 0 then
    let cap := depthCap * (3/2)
    let room := max 0 (cap - ctx.groundDepth)
    let added := min room amount
    (added, { ctx with groundDepth := ctx.groundDepth + added })
  else
    let len := ctx.ground.length
    let idxCenter0 : ℤ :=
      match posX with
      | none => (len : ℤ) / 2
      | some px => clampI 0 ((len : ℤ) - 1) ⌊(px / ctx.width) * ((len : ℚ) - 1)⌋
    let windBias :=
      if 0 < ctx.groundWindMax then clamp (-1) 1 (ctx.groundWindX / ctx.groundWindMax)
      else 0
    let idxCenter := (clampI 0 ((len : ℤ) - 1) (idxCenter0 + roundJS (windBias * 4))).toNat
    let (bins1, remaining1) := addToGroundAux dune depthCap len idxCenter 0 len ctx.ground amount
    let avg := bins1.sum / (len : ℚ)
    (amount - remaining1, { ctx with ground := bins1, groundDepth := avg })

-- Surface deposition (addSnowToBins and friends in src/render/layers.ts)

/-- Neighbor spill loop of addSnowToBins: each neighbor takes
max(0, min(share, depthLimit - bin)) and any positive leftover of its share
goes to the ground field scaled by groundFactor.  Returns the updated surface
bins, the accumulated used total, and the context threaded through the
ground deposits. -/
def spillNeighbors (dune : ℕ → ℚ) (groundFactor depthLimit depthCap : ℚ)
    (posX : Option ℚ) (share : ℚ) :
    List ℕ → List ℚ → ℚ → Ctx → List ℚ × ℚ × Ctx
  | [], bins, used, ctx => (bins, used, ctx)
  | n :: ns, bins, used, ctx =>
    let cap := depthLimit - bins.getD n 0
    let add := max 0 (min share cap)
    let bins' := binAdd bins n add
    let leftover := share - add
    if 0 < leftover then
      let (g, ctx') := addToGround dune (leftover * groundFactor) depthCap posX ctx
      spillNeighbors dune groundFactor depthLimit depthCap posX share ns bins'
        (used + add + g) ctx'
    else
      spillNeighbors dune groundFactor depthLimit depthCap posX share ns bins'
        (used + add) ctx

/-- Final refund shared by the budgeted deposition paths: credit back
max(0, requested - used) when positive. -/
def depositFinish (requested used : ℚ) (ctx : Ctx) : Ctx :=
  let unused := max 0 (requested - used)
  if 0 < unused then refundBudget unused ctx else ctx

/-- addSnowToBins from src/render/layers.ts, acting on one surface bin list
and the shared context.  Order of operations follows the source: consume the
requested amount, bail out routing everything to ground on an out-of-range
index, fill the target bin up to depthLimit, send 60 percent of the remainder
to ground, split the remaining 40 percent over the lateral neighbors, and
refund requested - used at the end. -/
def addSnowToBins (dune : ℕ → ℚ) (bins : List ℚ) (idx : ℤ)
    (amount groundFactor depthLimit depthCap : ℚ) (posX : Option ℚ)
    (ctx : Ctx) : List ℚ × Ctx :=
  if amount ≤ 0 then (bins, ctx)
  else
    let requested := amount
    let (remaining, ctx1) := consumeBudget requested ctx
    if remaining ≤ 0 then (bins, ctx1)
    else if idx < 0 ∨ (bins.length : ℤ) ≤ idx then
      let (g, ctx2) := addToGround dune (remaining * groundFactor) depthCap posX ctx1
      (bins, refundBudget (requested - g) ctx2)
    else
      let i := idx.toNat
      let capacity := depthLimit - bins.getD i 0
      let (bins1, remaining1, used1) :=
        if 0 < capacity then
          let added := min remaining capacity
          (binAdd bins i added, remaining - added, added)
        else (bins, remaining, (0 : ℚ))
      if remaining1 ≤ 0 then (bins1, refundBudget (requested - used1) ctx1)
      else
        let neighbors :=
          (if 0 < i then [i - 1] else []) ++
            (if i < bins.length - 1 then [i + 1] else [])
        let toGround := remaining1 * (3/5)
        let (g1, ctx2) := addToGround dune (toGround * groundFactor) depthCap posX ctx1
        let used2 := used1 + g1
        let remaining2 := max 0 (remaining1 - toGround)
        let spread := max 0 remaining2
        let (bins2, used3, ctx3) :=
          if 0 < spread ∧ neighbors ≠ [] then
            let share := spread / (neighbors.length : ℚ)
            spillNeighbors dune groundFactor depthLimit depthCap posX share
              neighbors bins1 used2 ctx2
          else if 0 < spread then
            let (g2, ctx3) := addToGround dune (spread * groundFactor) depthCap posX ctx2
            (bins1, used2 + g2, ctx3)
          else (bins1, used2, ctx2)
        (bins2, depositFinish requested used3 ctx3)

/-- Neighbor loop of addSnowToBinsRaw: like spillNeighbors but with no
ground routing and no context. -/
def rawSpill (depthLimit share : ℚ) :
    List ℕ → List ℚ → ℚ → List ℚ × ℚ
  | [], bins, used => (bins, used)
  | n :: ns, bins, used =>
    let cap := depthLimit - bins.getD n 0
    let add := max 0 (min share cap)
    rawSpill depthLimit share ns (binAdd bins n add) (used + add)

/-- addSnowToBinsRaw from src/render/layers.ts: clamp the index into range,
fill the target up to depthLimit, split the remainder over the lateral
neighbors (capped, excess silently not placed), and return the updated bins
with the amount actually used. -/
def addSnowToBinsRaw (bins : List ℚ) (idx : ℤ) (amount depthLimit : ℚ) :
    List ℚ × ℚ :=
  if amount ≤ 0 ∨ bins.length = 0 then (bins, 0)
  else
    let safeIdx := (clampI 0 ((bins.length : ℤ) - 1) idx).toNat
    let capacity := depthLimit - bins.getD safeIdx 0
    let (bins1, remaining1, used1) :=
      if 0 < capacity then
        let add := min amount capacity
        (binAdd bins safeIdx add, amount - add, add)
      else (bins, amount, (0 : ℚ))
    if remaining1 ≤ 0 then (bins1, used1)
    else
      let neighbors :=
        (if 0 < safeIdx then [safeIdx - 1] else []) ++
          (if safeIdx < bins.length - 1 then [safeIdx + 1] else [])
      if neighbors = [] then (bins1, used1)
      else
        let share := remaining1 / (neighbors.length : ℚ)
        rawSpill depthLimit share neighbors bins1 used1

/-- Downward spill loop of addSnowToTreeLayers: process layers k-1 down to 0
while spillRemaining stays positive.  Each layer below gets a depth limit
maxDepth * (0.55 + 0.45 * li / (layerCount - 1 || 1)) and receives at the
index idx shifted by round(windBias * 2 + sideBias), clamped into range. -/
def treeSpillLoop (maxDepth : ℚ) (idx : ℤ) (windBias sideBias : ℚ) :
    ℕ → List (List ℚ) → ℚ → ℚ → List (List ℚ) × ℚ × ℚ
  | 0, tree, spillRemaining, used => (tree, spillRemaining, used)
  | k + 1, tree, spillRemaining, used =>
    if spillRemaining ≤ 0 then (tree, spillRemaining, used)
    else
      let li := k
      let binsBelow := tree.getD li []
      let denom : ℚ := if tree.length - 1 = 0 then 1 else ((tree.length - 1 : ℕ) : ℚ)
      let depthLimitBelow := maxDepth * (11/20 + (9/20) * ((li : ℚ) / denom))
      let shift := roundJS (windBias * 2 + sideBias)
      let spillIdx := clampI 0 ((binsBelow.length : ℤ) - 1) (idx + shift)
      let (binsBelow1, applied) :=
        addSnowToBinsRaw binsBelow spillIdx spillRemaining depthLimitBelow
      treeSpillLoop maxDepth idx windBias sideBias k (tree.set li binsBelow1)
        (spillRemaining - applied) (used + applied)

/-- addSnowToTreeLayers from src/render/layers.ts, acting on one tree's
per-layer bin lists and the shared context.  Note the source reads
tree.snowBins[layerIndex] without a range check; getD with an empty default
makes the subsequent addSnowToBinsRaw a no-op in exactly the out-of-range
case the source never exercises. -/
def addSnowToTreeLayers (dune : ℕ → ℚ) (maxDepth : ℚ) (tree : List (List ℚ))
    (layerIndex : ℕ) (idx : ℤ) (amount depthLimit : ℚ) (posX : Option ℚ)
    (windBias : ℚ) (ctx : Ctx) : List (List ℚ) × Ctx :=
  if amount ≤ 0 then (tree, ctx)
  else
    let (allocated, ctx1) := consumeBudget amount ctx
    if allocated ≤ 0 then (tree, ctx1)
    else
      let bins := tree.getD layerIndex []
      let (bins1, applied) := addSnowToBinsRaw bins idx allocated depthLimit
      let tree1 := tree.set layerIndex bins1
      let remaining := allocated - applied
      if 0 < remaining then
        let spill := remaining * (17/20)
        let remaining2 := remaining - spill
        let sideBias : ℚ :=
          if (idx : ℚ) < (bins.length : ℚ) * (1/2) then -(3/5) else 3/5
        let (tree2, spillRemaining, used2) :=
          treeSpillLoop maxDepth idx windBias sideBias layerIndex tree1 spill applied
        let (used3, ctx2) :=
          if 0 < spillRemaining then
            let (g, c) := addToGround dune (spillRemaining * (9/20))
              SNOW_DEFAULT_MAX_DEPTH posX ctx1
            (used2 + g, c)
          else (used2, ctx1)
        let (used4, ctx3) :=
          if 0 < remaining2 then
            let (g, c) := addToGround dune (remaining2 * (7/20))
              SNOW_DEFAULT_MAX_DEPTH posX ctx2
            (used3 + g, c)
          else (used3, ctx2)
        (tree2, depositFinish allocated used4 ctx3)
      else (tree1, depositFinish allocated applied ctx1)

-- Erosion (wind erosion loops in SnowfallLayer.update), stickiness,
-- ground drift, resize

/-- One surface's erosion loop: bin i drops to
max(0, bin - erosion * (off + rand i)) where rand i abstracts the
Math.random() draw for that bin (house loops use off = 0.5, tree loops
off = 0.4), and every positive removed amount is refunded to the budget.
Returns the new bins, the threaded context, and the removed total. -/
def erodeBinsLoop (rand : ℕ → ℚ) (off erosion : ℚ) :
    List ℕ → List ℚ → Ctx → ℚ → List ℚ × Ctx × ℚ
  | [], bins, ctx, removedTotal => (bins, ctx, removedTotal)
  | i :: is, bins, ctx, removedTotal =>
    let before := bins.getD i 0
    let after := max 0 (before - erosion * (off + rand i))
    let removed := before - after
    let bins' := bins.set i after
    if 0 < removed then
      erodeBinsLoop rand off erosion is bins' (refundBudget removed ctx)
        (removedTotal + removed)
    else
      erodeBinsLoop rand off erosion is bins' ctx removedTotal

/-- erodeBins runs the loop over all bin indices in order. -/
def erodeBins (rand : ℕ → ℚ) (off erosion : ℚ) (bins : List ℚ) (ctx : Ctx) :
    List ℚ × Ctx × ℚ :=
  erodeBinsLoop rand off erosion (List.range bins.length) bins ctx 0

/-- The success probability inside shouldStick in src/render/layers.ts:
baseProb = 0.78 - mag / 320, scaled by 0.45 above the gust threshold 140,
then clamped into [0.08, 0.9]. -/
def stickProb (mag : ℚ) : ℚ :=
  let baseProb := 39/50 - mag / 320
  let baseProb := if 140 < mag then baseProb * (9/20) else baseProb
  clamp (2/25) (9/10) baseProb

/-- shouldStick from src/render/layers.ts with the Math.random() draw made
an explicit parameter: stick exactly when the draw falls below stickProb. -/
def shouldStick (rand mag : ℚ) : Bool :=
  decide (rand < stickProb mag)

/-- The snow-context part of SnowfallLayer.handleResize in mid mode:
ground bins are recreated as GROUND_SNOW_BINS zeros and groundDepth is
reset, with no compensating budget refund. -/
def handleResize (ctx : Ctx) : Ctx :=
  { ctx with ground := List.replicate GROUND_SNOW_BINS 0, groundDepth := 0 }

/-- Directional dune-migration pass of updateGroundDrift: for wind blowing
right, every bin i in order passes min(bin, bin * flow * jitter i) to bin
i + 1, where jitter i abstracts 0.65 + 0.35 * (0.5 + 0.5 * noise1d(...)). -/
def driftPassRight (jit : ℕ → ℚ) (flow : ℚ) (bins : List ℚ) : List ℚ :=
  (List.range (bins.length - 1)).foldl
    (fun b i =>
      let bi := b.getD i 0
      let move := min bi (bi * flow * jit i)
      binAdd (b.set i (bi - move)) (i + 1) move)
    bins

/-- Mirror pass for wind blowing left: bins from the top index down to 1
each pass mass to bin i - 1. -/
def driftPassLeft (jit : ℕ → ℚ) (flow : ℚ) (bins : List ℚ) : List ℚ :=
  (((List.range (bins.length - 1)).map (· + 1)).reverse).foldl
    (fun b i =>
      let bi := b.getD i 0
      let move := min bi (bi * flow * jit i)
      binAdd (b.set i (bi - move)) (i - 1) move)
    bins

/-- Slope-limiting relaxation pass of updateGroundDrift: any adjacent pair
whose difference exceeds slopeLimit exchanges 45 percent of the excess. -/
def slopePass (slopeLimit : ℚ) (bins : List ℚ) : List ℚ :=
  (List.range (bins.length - 1)).foldl
    (fun b i =>
      let diff := b.getD i 0 - b.getD (i + 1) 0
      if |diff| ≤ slopeLimit then b
      else
        let slide := (|diff| - slopeLimit) * (9/20)
        if 0 < diff then binAdd (b.set i (b.getD i 0 - slide)) (i + 1) slide
        else binAdd (b.set i (b.getD i 0 + slide)) (i + 1) (-slide))
    bins

/-- The bin-transforming part of updateGroundDrift in src/render/layers.ts:
strength from the ground wind and gust boost, early exit below 0.005, a
directional drift pass, then the slope relaxation.  The re-lofting block of
the source only reads the bins (it launches flakes and spends groundLoft),
and the trailing groundDepth assignment stores the mean; neither changes any
bin, so the bin array evolution is exactly this function. -/
def updateGroundDrift (jit : ℕ → ℚ) (windX maxPush gustBoost dt : ℚ)
    (bins : List ℚ) : List ℚ :=
  let maxPushEff := if maxPush = 0 then 1 else maxPush
  let strength := clamp 0 1 ((|windX| / maxPushEff) * (8/5) + gustBoost * (3/5))
  if strength < 1/200 then bins
  else
    let flow := strength * dt * (26/5)
    let bins1 :=
      if 0 ≤ windX then driftPassRight jit flow bins
      else driftPassLeft jit flow bins
    slopePass (11/10 + strength * (24/5)) bins1

-- Wind trail (WindTrail in the wind module)

/-- A 2-D vector. -/
structure Vec2 where
  x : ℚ
  y : ℚ
deriving Repr, DecidableEq

/-- One wind trail segment; immutable apart from age. -/
structure TrailSegment where
  p0 : Vec2
  p1 : Vec2
  dir : Vec2
  len : ℚ
  rMax : ℚ
  speed : ℚ
  age : ℚ
  life : ℚ
  spin : ℚ
deriving Repr, DecidableEq

/-- The blended wind trail options record (all fields the query and update
paths read). -/
structure WindOpts where
  trailLife : ℚ
  decay : ℚ
  swirl : ℚ
  ambientJitter : ℚ
  maxPush : ℚ
  pullStrength : ℚ
  ejectChance : ℚ
  ejectBoost : ℚ
  ejectWindow : ℚ
deriving Repr, DecidableEq

/-- Oracle for the transcendental library functions the wind code calls.
Each is an arbitrary but fixed function, which is exactly what determinism
claims need: Math.sin, Math.cos, Math.hypot and Math.exp are pure. -/
structure MathOps where
  sin : ℚ → ℚ
  cos : ℚ → ℚ
  hypot : ℚ → ℚ → ℚ
  exp : ℚ → ℚ

/-- The default options of the wind module (decay 0.06, trail life 2.2). -/
def windDefaults : WindOpts :=
  { trailLife := 11/5, decay := 3/50, swirl := 1/5, ambientJitter := 1/2
    maxPush := 320, pullStrength := 2/5, ejectChance := 1/2
    ejectBoost := 11/5, ejectWindow := 7/20 }

/-- Contribution of one segment inside getWindAt: bounding-box reject,
projection onto the segment, lateral falloff, age falloff, forward push,
swirl and entrainment pull when strictly off-axis, and the late-life nozzle
boost. -/
def segContrib (m : MathOps) (o : WindOpts) (px py : ℚ) (acc : ℚ × ℚ)
    (s : TrailSegment) : ℚ × ℚ :=
  let minX := min s.p0.x s.p1.x - s.rMax
  let maxX := max s.p0.x s.p1.x + s.rMax
  let minY := min s.p0.y s.p1.y - s.rMax
  let maxY := max s.p0.y s.p1.y + s.rMax
  if px < minX ∨ maxX < px ∨ py < minY ∨ maxY < py then acc
  else
    let dx := px - s.p0.x
    let dy := py - s.p0.y
    let t := clamp 0 1 ((dx * s.dir.x + dy * s.dir.y) /
      (if s.len = 0 then 1 else s.len))
    let projX := s.p0.x + s.dir.x * s.len * t
    let projY := s.p0.y + s.dir.y * s.len * t
    let latX := px - projX
    let latY := py - projY
    let dist := m.hypot latX latY
    if s.rMax < dist then acc
    else
      let tLat := 1 - smoothstep 0 s.rMax dist
      let tAge := clamp 0 1 (1 - s.age / s.life)
      let core := tLat * tLat
      let push := s.speed * tLat * tAge * (3/5 + (2/5) * core)
      let ux := acc.1 + s.dir.x * push
      let uy := acc.2 + s.dir.y * push
      let p :=
        if 0 < dist then
          let latNx := latX / dist
          let latNy := latY / dist
          let spinMag := |s.spin|
          let swirlScale := o.swirl * tLat * tAge * (1/5 + (4/5) * spinMag)
          let swirlSpeed := s.speed * swirlScale
          let swirlDir := if s.spin = 0 then 1 else signQ s.spin
          let ux := ux + -latNy * swirlSpeed * swirlDir
          let uy := uy + latNx * swirlSpeed * swirlDir
          let pullScale := o.pullStrength * (13/20 + spinMag * (7/10))
          let pull := s.speed * pullScale * tLat * tAge
          (ux + -latNx * pull * (3/10), uy + -latNy * pull * (3/10))
        else (ux, uy)
      let ejectWindow := clamp (1/20) (9/10) o.ejectWindow
      let nozzle := smoothstep (1 - ejectWindow) 1 tAge
      let ejectPush := s.speed * o.ejectBoost * o.ejectChance * nozzle * tLat
      (p.1 + s.dir.x * ejectPush, p.2 + s.dir.y * ejectPush)

/-- getWindAt from the wind module: ambient jitter (a pure sine and cosine
of position and the internal time), a sum over the segments in reverse
order, and a final magnitude clamp.  No random source appears anywhere on
this path; the only inputs are the options, the segment list, the internal
time and the query point. -/
def getWindAt (m : MathOps) (o : WindOpts) (segments : List TrailSegment)
    (time px py : ℚ) : Vec2 :=
  let u0 : ℚ × ℚ :=
    if 0 < o.ambientJitter then
      (m.sin ((px + time * 60) * (1/50) + py * (1/250)) * o.ambientJitter * (1/2),
        m.cos ((py - time * 55) * (1/50) - px * (1/200)) * o.ambientJitter * (1/2))
    else (0, 0)
  let u := segments.reverse.foldl (segContrib m o px py) u0
  let mag := m.hypot u.1 u.2
  let clampMag := clamp 0 o.maxPush mag
  if o.maxPush < mag then
    { x := u.1 / mag * clampMag, y := u.2 / mag * clampMag }
  else
    { x := u.1, y := u.2 }

/-- The wind trail state that update(dt) touches. -/
structure WindState where
  time : ℚ
  lastSpeed : ℚ
  segments : List TrailSegment
deriving Repr, DecidableEq

/-- update(dt) from the wind module: advance time, decay the gust speed
exponentially, age every segment by dt * (1 + decay), and drop the segments
whose age now exceeds their life (the source splices while iterating
backward, which removes exactly those segments in order). -/
def windUpdate (m : MathOps) (o : WindOpts) (dt : ℚ) (st : WindState) :
    WindState :=
  { time := st.time + dt
    lastSpeed := st.lastSpeed * m.exp (-dt * (13/5))
    segments :=
      (st.segments.map fun s => { s with age := s.age + dt * (1 + o.decay) }).filter
        fun s => decide (s.age ≤ s.life) }

/-- A run of update calls with the given time steps. -/
def runWindUpdates (m : MathOps) (o : WindOpts) (st : WindState)
    (dts : List ℚ) : WindState :=
  dts.foldl (fun s d => windUpdate m o d s) st

/-- The unique aged copy of a segment after total aging a. -/
def ageSeg (a : ℚ) (s : TrailSegment) : TrailSegment :=
  { s with age := s.age + a }

-- The whole-scene state for deposition sequences

/-- The deposition-relevant world: the shared context, the layer's maxDepth
(used by tree spill depth limits), every house-roof bin list, and every
tree's list of crown-layer bin lists. -/
structure World where
  ctx : Ctx
  maxDepth : ℚ
  surfaces : List (List ℚ)
  trees : List (List (List ℚ))
deriving Repr, DecidableEq

/-- One deposition call, naming its target surface by position. -/
inductive Call where
  | toBins (s : ℕ) (idx : ℤ) (amount groundFactor depthLimit depthCap : ℚ)
      (posX : Option ℚ)
  | toTree (t : ℕ) (layerIndex : ℕ) (idx : ℤ) (amount depthLimit : ℚ)
      (posX : Option ℚ) (windBias : ℚ)
deriving Repr, DecidableEq

/-- Apply one deposition call to the world. -/
def applyCall (dune : ℕ → ℚ) (w : World) (c : Call) : World :=
  match c with
  | .toBins s idx amount groundFactor depthLimit depthCap posX =>
    let p := addSnowToBins dune (w.surfaces.getD s []) idx amount groundFactor
      depthLimit depthCap posX w.ctx
    { w with surfaces := w.surfaces.set s p.1, ctx := p.2 }
  | .toTree t layerIndex idx amount depthLimit posX windBias =>
    let p := addSnowToTreeLayers dune w.maxDepth (w.trees.getD t [])
      layerIndex idx amount depthLimit posX windBias w.ctx
    { w with trees := w.trees.set t p.1, ctx := p.2 }

/-- Run a sequence of deposition calls left to right. -/
def runCalls (dune : ℕ → ℚ) (w : World) (calls : List Call) : World :=
  calls.foldl (applyCall dune) w

/-- Total mass resident in every height-field bin of the world: house roof
bins, tree crown bins and ground bins. -/
def worldMass (w : World) : ℚ :=
  (w.surfaces.map List.sum).sum +
    (w.trees.map fun t => (t.map List.sum).sum).sum +
    w.ctx.ground.sum

/-- All entries of a rational list are non-negative. -/
def nonnegL (l : List ℚ) : Bool :=
  l.all fun x => decide (0 ≤ x)

/-- All height-field bins of the world are non-negative. -/
def worldNonneg (w : World) : Bool :=
  nonnegL w.ctx.ground && w.surfaces.all nonnegL &&
    w.trees.all fun t => t.all nonnegL

/-- Every call in the sequence, at its point of execution, requests at most
the then-available budget, and every toBins call uses a ground factor in
[0, 1] (the only call site in the source passes 0.5). -/
def callsOK (dune : ℕ → ℚ) : World → List Call → Bool
  | _, [] => true
  | w, c :: cs =>
    (match c with
      | .toBins _ _ amount groundFactor _ _ _ =>
        decide (amount ≤ w.ctx.budget) && decide (0 ≤ groundFactor) &&
          decide (groundFactor ≤ 1)
      | .toTree _ _ _ amount _ _ _ =>
        decide (amount ≤ w.ctx.budget)) &&
      callsOK dune (applyCall dune w c) cs

-- Context invariant toolkit

/-- The budget pool is within its configured bounds. -/
def CtxOk (ctx : Ctx) : Prop :=
  0 ≤ ctx.budget ∧ ctx.budget ≤ ctx.budgetMax

theorem ctxOk_consume (amount : ℚ) (ctx : Ctx) (h : CtxOk ctx)
    (ha : 0 ≤ amount) : CtxOk ((consumeBudget amount ctx).2) ∧
      ((consumeBudget amount ctx).2).budgetMax = ctx.budgetMax := by
  obtain ⟨h0, h1⟩ := h
  refine ⟨⟨consumeBudget_nonneg amount ctx h0, ?_⟩, rfl⟩
  rw [consumeBudget_budgetMax]
  exact (consumeBudget_le amount ctx ha).trans h1

theorem ctxOk_refund (amount : ℚ) (ctx : Ctx) (h : CtxOk ctx) :
    CtxOk (refundBudget amount ctx) ∧
      (refundBudget amount ctx).budgetMax = ctx.budgetMax := by
  obtain ⟨h0, h1⟩ := h
  have hm := refundBudget_mem amount ctx h0 h1
  exact ⟨⟨hm.1, by rw [refundBudget_budgetMax]; exact hm.2⟩,
    refundBudget_budgetMax amount ctx⟩

theorem addToGround_budget (dune : ℕ → ℚ) (a dc : ℚ) (posX : Option ℚ)
    (ctx : Ctx) : ((addToGround dune a dc posX ctx).2).budget = ctx.budget := by
  unfold addToGround
  split
  · rfl
  · split <;> rfl

theorem addToGround_budgetMax (dune : ℕ → ℚ) (a dc : ℚ) (posX : Option ℚ)
    (ctx : Ctx) :
    ((addToGround dune a dc posX ctx).2).budgetMax = ctx.budgetMax := by
  unfold addToGround
  split
  · rfl
  · split <;> rfl

theorem ctxOk_addToGround (dune : ℕ → ℚ) (a dc : ℚ) (posX : Option ℚ)
    (ctx : Ctx) (h : CtxOk ctx) : CtxOk ((addToGround dune a dc posX ctx).2) := by
  constructor
  · rw [addToGround_budget]; exact h.1
  · rw [addToGround_budget, addToGround_budgetMax]; exact h.2

theorem spillNeighbors_ctxOk (dune : ℕ → ℚ) (gf dl dc : ℚ) (posX : Option ℚ)
    (share : ℚ) (ns : List ℕ) (bins : List ℚ) (used : ℚ) (ctx : Ctx)
    (h : CtxOk ctx) :
    CtxOk ((spillNeighbors dune gf dl dc posX share ns bins used ctx).2.2) ∧
      ((spillNeighbors dune gf dl dc posX share ns bins used ctx).2.2).budgetMax
        = ctx.budgetMax := by
  induction ns generalizing bins used ctx with
  | nil => exact ⟨h, rfl⟩
  | cons n ns ih =>
    simp only [spillNeighbors]
    split
    · rename_i hlft
      have h2 := ctxOk_addToGround dune ((share - max 0 (min share (dl - bins.getD n 0))) * gf) dc posX ctx h
      refine ⟨(ih _ _ _ h2).1, ((ih _ _ _ h2).2).trans (addToGround_budgetMax dune _ dc posX ctx)⟩
    · exact ih _ _ _ h

theorem ctxOk_depositFinish (requested used : ℚ) (ctx : Ctx) (h : CtxOk ctx) :
    CtxOk (depositFinish requested used ctx) ∧
      (depositFinish requested used ctx).budgetMax = ctx.budgetMax := by
  unfold depositFinish
  dsimp only
  split
  · exact ctxOk_refund _ _ h
  · exact ⟨h, rfl⟩

theorem ctxOk_addSnowToBins (dune : ℕ → ℚ) (bins : List ℚ) (idx : ℤ)
    (amount gf dl dc : ℚ) (posX : Option ℚ) (ctx : Ctx) (h : CtxOk ctx) :
    CtxOk ((addSnowToBins dune bins idx amount gf dl dc posX ctx).2) ∧
      ((addSnowToBins dune bins idx amount gf dl dc posX ctx).2).budgetMax
        = ctx.budgetMax := by
  unfold addSnowToBins
  dsimp only
  split
  · exact ⟨h, rfl⟩
  rename_i hamt
  have hamt' : (0:ℚ) ≤ amount := le_of_lt (not_le.mp hamt)
  rcases hE : consumeBudget amount ctx with ⟨granted, ctx1⟩
  have hc : CtxOk ctx1 ∧ ctx1.budgetMax = ctx.budgetMax := by
    have h2 := ctxOk_consume amount ctx h hamt'
    rw [hE] at h2
    exact h2
  dsimp only
  split
  · exact hc
  split
  · rcases hG : addToGround dune (granted * gf) dc posX ctx1 with ⟨g, ctx2⟩
    have hg : CtxOk ctx2 ∧ ctx2.budgetMax = ctx1.budgetMax := by
      have h3 := ctxOk_addToGround dune (granted * gf) dc posX ctx1 hc.1
      have h4 := addToGround_budgetMax dune (granted * gf) dc posX ctx1
      rw [hG] at h3 h4
      exact ⟨h3, h4⟩
    dsimp only
    have h5 := ctxOk_refund (amount - g) ctx2 hg.1
    exact ⟨h5.1, h5.2.trans (hg.2.trans hc.2)⟩
  · rcases hS :
      (if 0 < dl - bins.getD idx.toNat 0 then
        (binAdd bins idx.toNat (granted ⊓ (dl - bins.getD idx.toNat 0)),
          granted - granted ⊓ (dl - bins.getD idx.toNat 0),
          granted ⊓ (dl - bins.getD idx.toNat 0))
      else (bins, granted, (0:ℚ))) with ⟨bins1, rem1, used1⟩
    dsimp only
    split
    · have h5 := ctxOk_refund (amount - used1) ctx1 hc.1
      exact ⟨h5.1, h5.2.trans hc.2⟩
    · rcases hG1 : addToGround dune (rem1 * (3/5) * gf) dc posX ctx1 with ⟨g1, ctx2⟩
      have hg1 : CtxOk ctx2 ∧ ctx2.budgetMax = ctx1.budgetMax := by
        have h3 := ctxOk_addToGround dune (rem1 * (3/5) * gf) dc posX ctx1 hc.1
        have h4 := addToGround_budgetMax dune (rem1 * (3/5) * gf) dc posX ctx1
        rw [hG1] at h3 h4
        exact ⟨h3, h4⟩
      dsimp only
      set sp : ℚ := 0 ⊔ (0 ⊔ (rem1 - rem1 * (3/5))) with hsp
      set nbrs : List ℕ := (if 0 < idx.toNat then [idx.toNat - 1] else []) ++
        (if idx.toNat < bins.length - 1 then [idx.toNat + 1] else []) with hnbrs
      split
      · rename_i hcnd
        rcases hSp : spillNeighbors dune gf dl dc posX (sp / (nbrs.length : ℚ))
          nbrs bins1 (used1 + g1) ctx2 with ⟨bins2, used3, ctx3⟩
        have hs : CtxOk ctx3 ∧ ctx3.budgetMax = ctx2.budgetMax := by
          have h3 := spillNeighbors_ctxOk dune gf dl dc posX (sp / (nbrs.length : ℚ)) nbrs bins1 (used1 + g1) ctx2 hg1.1
          rw [hSp] at h3
          exact h3
        dsimp only
        have h5 := ctxOk_depositFinish amount used3 ctx3 hs.1
        exact ⟨h5.1, h5.2.trans (hs.2.trans (hg1.2.trans hc.2))⟩
      · split
        · rcases hG2 : addToGround dune (sp * gf) dc posX ctx2 with ⟨g2, ctx3⟩
          have hg2 : CtxOk ctx3 ∧ ctx3.budgetMax = ctx2.budgetMax := by
            have h3 := ctxOk_addToGround dune (sp * gf) dc posX ctx2 hg1.1
            have h4 := addToGround_budgetMax dune (sp * gf) dc posX ctx2
            rw [hG2] at h3 h4
            exact ⟨h3, h4⟩
          dsimp only
          have h5 := ctxOk_depositFinish amount (used1 + g1 + g2) ctx3 hg2.1
          exact ⟨h5.1, h5.2.trans (hg2.2.trans (hg1.2.trans hc.2))⟩
        · dsimp only
          have h5 := ctxOk_depositFinish amount (used1 + g1) ctx2 hg1.1
          exact ⟨h5.1, h5.2.trans (hg1.2.trans hc.2)⟩

/-- Packaged context step facts: each budget-touching primitive preserves
CtxOk and the budgetMax value. -/
theorem ctxStep_consume (amount : ℚ) (ctx : Ctx) (B : ℚ)
    (h : CtxOk ctx ∧ ctx.budgetMax = B) (ha : 0 ≤ amount) :
    CtxOk ((consumeBudget amount ctx).2) ∧
      ((consumeBudget amount ctx).2).budgetMax = B := by
  have h2 := ctxOk_consume amount ctx h.1 ha
  exact ⟨h2.1, h2.2.trans h.2⟩

theorem ctxStep_refund (x : ℚ) (ctx : Ctx) (B : ℚ)
    (h : CtxOk ctx ∧ ctx.budgetMax = B) :
    CtxOk (refundBudget x ctx) ∧ (refundBudget x ctx).budgetMax = B := by
  have h2 := ctxOk_refund x ctx h.1
  exact ⟨h2.1, h2.2.trans h.2⟩

theorem ctxStep_ground (dune : ℕ → ℚ) (a dc : ℚ) (posX : Option ℚ)
    (ctx : Ctx) (B : ℚ) (h : CtxOk ctx ∧ ctx.budgetMax = B) :
    CtxOk ((addToGround dune a dc posX ctx).2) ∧
      ((addToGround dune a dc posX ctx).2).budgetMax = B := by
  exact ⟨ctxOk_addToGround dune a dc posX ctx h.1,
    (addToGround_budgetMax dune a dc posX ctx).trans h.2⟩

theorem ctxStep_finish (A U : ℚ) (ctx : Ctx) (B : ℚ)
    (h : CtxOk ctx ∧ ctx.budgetMax = B) :
    CtxOk (depositFinish A U ctx) ∧ (depositFinish A U ctx).budgetMax = B := by
  have h2 := ctxOk_depositFinish A U ctx h.1
  exact ⟨h2.1, h2.2.trans h.2⟩

theorem ctxOk_addSnowToTreeLayers (dune : ℕ → ℚ) (maxDepth : ℚ)
    (tree : List (List ℚ)) (layerIndex : ℕ) (idx : ℤ) (amount dl : ℚ)
    (posX : Option ℚ) (windBias : ℚ) (ctx : Ctx) (h : CtxOk ctx) :
    CtxOk ((addSnowToTreeLayers dune maxDepth tree layerIndex idx amount dl
        posX windBias ctx).2) ∧
      ((addSnowToTreeLayers dune maxDepth tree layerIndex idx amount dl
        posX windBias ctx).2).budgetMax = ctx.budgetMax := by
  unfold addSnowToTreeLayers
  dsimp only
  split
  · exact ⟨h, rfl⟩
  rename_i hamt
  have hamt' : (0:ℚ) ≤ amount := le_of_lt (not_le.mp hamt)
  have hc := ctxStep_consume amount ctx ctx.budgetMax ⟨h, rfl⟩ hamt'
  repeat' split
  all_goals
    first
    | exact hc
    | exact ctxStep_finish _ _ _ _ hc
    | exact ctxStep_finish _ _ _ _ (ctxStep_ground _ _ _ _ _ _ hc)
    | exact ctxStep_finish _ _ _ _
        (ctxStep_ground _ _ _ _ _ _ (ctxStep_ground _ _ _ _ _ _ hc))

theorem ctxOk_erodeBinsLoop (rand : ℕ → ℚ) (off erosion : ℚ) (is : List ℕ)
    (bins : List ℚ) (ctx : Ctx) (removedTotal : ℚ) (h : CtxOk ctx) :
    CtxOk ((erodeBinsLoop rand off erosion is bins ctx removedTotal).2.1) ∧
      ((erodeBinsLoop rand off erosion is bins ctx removedTotal).2.1).budgetMax
        = ctx.budgetMax := by
  induction is generalizing bins ctx removedTotal with
  | nil => exact ⟨h, rfl⟩
  | cons i is ih =>
    simp only [erodeBinsLoop]
    split
    · have h2 := ctxStep_refund (bins.getD i 0 - max 0 (bins.getD i 0 - erosion * (off + rand i)))
        ctx ctx.budgetMax ⟨h, rfl⟩
      exact ih _ _ _ h2.1 |>.imp id (fun e => e.trans h2.2)
    · exact ih _ _ _ h

theorem ctxOk_runBudgetOps (ops : List BudgetOp) (ctx : Ctx)
    (h : CtxOk ctx) (hops : consumesNonneg ops = true) :
    CtxOk (runBudgetOps ctx ops) ∧
      (runBudgetOps ctx ops).budgetMax = ctx.budgetMax := by
  induction ops generalizing ctx with
  | nil => exact ⟨h, rfl⟩
  | cons op ops ih =>
    simp only [consumesNonneg, List.all_cons, Bool.and_eq_true] at hops
    have hstep : CtxOk (applyBudgetOp ctx op) ∧
        (applyBudgetOp ctx op).budgetMax = ctx.budgetMax := by
      cases op with
      | consume a =>
        have ha : (0:ℚ) ≤ a := by
          have := hops.1
          simpa using this
        exact ctxStep_consume a ctx ctx.budgetMax ⟨h, rfl⟩ ha
      | refund a => exact ctxStep_refund a ctx ctx.budgetMax ⟨h, rfl⟩
    have hrest : consumesNonneg ops = true := by
      simp only [consumesNonneg]
      exact hops.2
    have h2 := ih (applyBudgetOp ctx op) hstep.1 hrest
    exact ⟨h2.1, h2.2.trans hstep.2⟩

-- Claim C4

/-- C4: consumeBudget returns exactly min(requested, available) with
available the non-negative part of the current budget, and debits precisely
the granted amount; refundBudget credits the amount back clamped so the pool
never exceeds budgetMax. -/
theorem consume_refund_contract (amount r : ℚ) (ctx ctx2 : Ctx)
    (ha : 0 ≤ amount) (hr : 0 < r) (hb : 0 ≤ ctx2.budget) :
    (consumeBudget amount ctx).1 = min amount (max 0 ctx.budget) ∧
      ((consumeBudget amount ctx).2).budget
        = ctx.budget - (consumeBudget amount ctx).1 ∧
      (refundBudget r ctx2).budget = min ctx2.budgetMax (ctx2.budget + r) := by
  refine ⟨rfl, rfl, ?_⟩
  rw [refundBudget_budget, if_neg (not_le.mpr hr)]
  unfold clamp
  rw [max_eq_right (by linarith : (0:ℚ) ≤ ctx2.budget + r)]

/-- Concrete context used by the witnesses. -/
def wCtx : Ctx :=
  { budget := 100, budgetMax := 100, ground := [0, 0, 0], groundDepth := 0
    groundWindX := 0, groundWindMax := 0, width := 100 }

theorem consume_refund_contract_witness :
    (consumeBudget 5 wCtx).1 = min 5 (max 0 wCtx.budget) ∧
      ((consumeBudget 5 wCtx).2).budget = wCtx.budget - (consumeBudget 5 wCtx).1 ∧
      (refundBudget 2 wCtx).budget = min wCtx.budgetMax (wCtx.budget + 2) :=
  consume_refund_contract 5 2 wCtx wCtx (by norm_num) (by norm_num)
    (by norm_num [wCtx])

-- Claim C3

/-- C3: the budget pool stays within [0, budgetMax] under any sequence of
raw budget operations whose consume requests are non-negative (as all the
deposit and erode call sites guarantee), and under addSnowToBins,
addSnowToTreeLayers and the erosion loop applied with arbitrary arguments. -/
theorem budget_pool_bounds (ops : List BudgetOp) (dune rand : ℕ → ℚ)
    (bins : List ℚ) (tree : List (List ℚ)) (idx : ℤ) (layerIndex : ℕ)
    (amount gf dl dc maxDepth windBias off erosion : ℚ) (posX : Option ℚ)
    (ctx : Ctx) (h0 : 0 ≤ ctx.budget) (h1 : ctx.budget ≤ ctx.budgetMax)
    (hops : consumesNonneg ops = true) :
    (0 ≤ (runBudgetOps ctx ops).budget ∧
      (runBudgetOps ctx ops).budget ≤ ctx.budgetMax) ∧
    (0 ≤ ((addSnowToBins dune bins idx amount gf dl dc posX ctx).2).budget ∧
      ((addSnowToBins dune bins idx amount gf dl dc posX ctx).2).budget
        ≤ ctx.budgetMax) ∧
    (0 ≤ ((addSnowToTreeLayers dune maxDepth tree layerIndex idx amount dl
        posX windBias ctx).2).budget ∧
      ((addSnowToTreeLayers dune maxDepth tree layerIndex idx amount dl
        posX windBias ctx).2).budget ≤ ctx.budgetMax) ∧
    (0 ≤ ((erodeBins rand off erosion bins ctx).2.1).budget ∧
      ((erodeBins rand off erosion bins ctx).2.1).budget ≤ ctx.budgetMax) := by
  have h : CtxOk ctx := ⟨h0, h1⟩
  refine ⟨?_, ?_, ?_, ?_⟩
  · have h2 := ctxOk_runBudgetOps ops ctx h hops
    exact ⟨h2.1.1, h2.2 ▸ h2.1.2⟩
  · have h2 := ctxOk_addSnowToBins dune bins idx amount gf dl dc posX ctx h
    exact ⟨h2.1.1, h2.2 ▸ h2.1.2⟩
  · have h2 := ctxOk_addSnowToTreeLayers dune maxDepth tree layerIndex idx
      amount dl posX windBias ctx h
    exact ⟨h2.1.1, h2.2 ▸ h2.1.2⟩
  · have h2 := ctxOk_erodeBinsLoop rand off erosion (List.range bins.length)
      bins ctx 0 h
    exact ⟨h2.1.1, h2.2 ▸ h2.1.2⟩

theorem budget_pool_bounds_witness :
    (0 ≤ (runBudgetOps wCtx [BudgetOp.consume 5, BudgetOp.refund 3]).budget ∧
      (runBudgetOps wCtx [BudgetOp.consume 5, BudgetOp.refund 3]).budget
        ≤ wCtx.budgetMax) ∧
    (0 ≤ ((addSnowToBins (fun _ => 1/2) [0, 0] 0 7 (1/2) 10 36 none wCtx).2).budget ∧
      ((addSnowToBins (fun _ => 1/2) [0, 0] 0 7 (1/2) 10 36 none wCtx).2).budget
        ≤ wCtx.budgetMax) ∧
    (0 ≤ ((addSnowToTreeLayers (fun _ => 1/2) 14 [[0], [0]] 1 0 7 10 none 0 wCtx).2).budget ∧
      ((addSnowToTreeLayers (fun _ => 1/2) 14 [[0], [0]] 1 0 7 10 none 0 wCtx).2).budget
        ≤ wCtx.budgetMax) ∧
    (0 ≤ ((erodeBins (fun _ => 1/2) (1/2) 1 [0, 0] wCtx).2.1).budget ∧
      ((erodeBins (fun _ => 1/2) (1/2) 1 [0, 0] wCtx).2.1).budget
        ≤ wCtx.budgetMax) :=
  budget_pool_bounds [BudgetOp.consume 5, BudgetOp.refund 3] (fun _ => 1/2)
    (fun _ => 1/2) [0, 0] [[0], [0]] 0 1 7 (1/2) 10 36 14 0 (1/2) 1 none wCtx
    (by norm_num [wCtx]) (by norm_num [wCtx]) (by decide)

-- Claim C9

theorem stickProb_antitone (m1 m2 : ℚ) (h01 : 0 ≤ m1) (h12 : m1 ≤ m2) :
    stickProb m2 ≤ stickProb m1 := by
  unfold stickProb clamp
  dsimp only
  rcases le_or_lt m2 140 with hm2 | hm2
  · rw [if_neg (by linarith : ¬(140:ℚ) < m1), if_neg (by linarith : ¬(140:ℚ) < m2)]
    have : 39/50 - m2 / 320 ≤ 39/50 - m1 / 320 := by linarith
    exact min_le_min le_rfl (max_le_max le_rfl this)
  · rw [if_pos hm2]
    split
    · rename_i hm1
      have hb : (39/50 - m2 / 320) * (9/20) ≤ (39/50 - m1 / 320) * (9/20) := by
        linarith
      exact min_le_min le_rfl (max_le_max le_rfl hb)
    · rename_i hm1
      have hm1' : m1 ≤ 140 := le_of_not_lt hm1
      have hb : (39/50 - m2 / 320) * (9/20) ≤ 39/50 - m1 / 320 := by linarith
      exact min_le_min le_rfl (max_le_max le_rfl hb)

/-- C9: the probability that a colliding flake sticks, stickProb, is
non-increasing in the wind magnitude for magnitudes at or above the no-wind
baseline, and pointwise in the random draw: any draw that sticks at the
higher magnitude also sticks at the lower one. -/
theorem stickiness_monotone (m1 m2 r : ℚ) (h01 : 0 ≤ m1) (h12 : m1 ≤ m2) :
    stickProb m2 ≤ stickProb m1 ∧
      (shouldStick r m2 = true → shouldStick r m1 = true) := by
  refine ⟨stickProb_antitone m1 m2 h01 h12, ?_⟩
  intro hs
  simp only [shouldStick, decide_eq_true_eq] at hs ⊢
  exact lt_of_lt_of_le hs (stickProb_antitone m1 m2 h01 h12)

theorem stickiness_monotone_witness :
    stickProb 200 ≤ stickProb 100 ∧
      (shouldStick (1/10) 200 = true → shouldStick (1/10) 100 = true) :=
  stickiness_monotone 100 200 (1/10) (by norm_num) (by norm_num)

-- Claim C10

/-- C10: resizing the mid snowfall layer recreates the ground bins as zeros
and resets groundDepth while leaving the budget untouched, so a conservation
balance that held before the resize (budgetMax - budget equal to surface
mass plus ground mass) no longer holds afterwards whenever the discarded
ground mass was positive. -/
theorem resize_drops_ground_mass (ctx : Ctx) (surfMass : ℚ)
    (hcons : ctx.budgetMax - ctx.budget = surfMass + ctx.ground.sum)
    (hpos : 0 < ctx.ground.sum) :
    (handleResize ctx).budget = ctx.budget ∧
      (handleResize ctx).ground.sum = 0 ∧
      (handleResize ctx).groundDepth = 0 ∧
      (handleResize ctx).budgetMax - (handleResize ctx).budget
        ≠ surfMass + (handleResize ctx).ground.sum := by
  have hz : (handleResize ctx).ground.sum = 0 := by
    unfold handleResize
    simp [List.sum_replicate]
  refine ⟨rfl, hz, rfl, ?_⟩
  rw [hz]
  unfold handleResize
  dsimp only
  intro hEq
  rw [hcons] at hEq
  linarith

/-- Concrete context for the resize witness. -/
def rCtx : Ctx :=
  { budget := 80, budgetMax := 100, ground := [5, 15], groundDepth := 10
    groundWindX := 0, groundWindMax := 0, width := 100 }

theorem resize_drops_ground_mass_witness :
    (handleResize rCtx).budget = rCtx.budget ∧
      (handleResize rCtx).ground.sum = 0 ∧
      (handleResize rCtx).groundDepth = 0 ∧
      (handleResize rCtx).budgetMax - (handleResize rCtx).budget
        ≠ 0 + (handleResize rCtx).ground.sum :=
  resize_drops_ground_mass rCtx 0 (by norm_num [rCtx]) (by norm_num [rCtx])

-- Claim C7

/-- C7: getWindAt is a pure function of the options, the segment list, the
internal time and the query point: two invocations with equal segment lists
(including ages), equal times and equal query coordinates return the same
velocity vector, for any fixed interpretation of the math library calls.
The ambient jitter term is computed from position and time alone. -/
theorem wind_query_deterministic (m : MathOps) (o : WindOpts)
    (segs1 segs2 : List TrailSegment) (t1 t2 px1 px2 py1 py2 : ℚ)
    (hseg : segs1 = segs2) (ht : t1 = t2) (hx : px1 = px2) (hy : py1 = py2) :
    getWindAt m o segs1 t1 px1 py1 = getWindAt m o segs2 t2 px2 py2 := by
  subst hseg ht hx hy
  rfl

/-- A concrete segment for the wind witnesses. -/
def wSeg : TrailSegment :=
  { p0 := { x := 0, y := 0 }, p1 := { x := 10, y := 0 }
    dir := { x := 1, y := 0 }, len := 10, rMax := 50, speed := 8
    age := 1, life := 11/5, spin := 1/4 }

/-- A concrete oracle for the math library calls in the witnesses. -/
def wMath : MathOps :=
  { sin := fun _ => 1/2, cos := fun _ => 1/2, hypot := fun a b => |a| + |b|
    exp := fun _ => 1/2 }

theorem wind_query_deterministic_witness :
    getWindAt wMath windDefaults [wSeg] 3 4 5
      = getWindAt wMath windDefaults [wSeg] 3 4 5 :=
  wind_query_deterministic wMath windDefaults [wSeg] [wSeg] 3 3 4 4 5 5
    rfl rfl rfl rfl

-- Claim C8

theorem windUpdate_mem_le (m : MathOps) (o : WindOpts) (d : ℚ)
    (st : WindState) (σ : TrailSegment)
    (hin : σ ∈ (windUpdate m o d st).segments) : σ.age ≤ σ.life := by
  unfold windUpdate at hin
  dsimp only at hin
  exact of_decide_eq_true (List.mem_filter.mp hin).2

theorem runWindUpdates_mem_le (m : MathOps) (o : WindOpts) (dts : List ℚ)
    (st : WindState) (hne : dts ≠ []) (σ : TrailSegment)
    (hin : σ ∈ (runWindUpdates m o st dts).segments) : σ.age ≤ σ.life := by
  induction dts generalizing st with
  | nil => exact absurd rfl hne
  | cons d rest ih =>
    rcases eq_or_ne rest [] with hr | hr
    · subst hr
      exact windUpdate_mem_le m o d st σ hin
    · exact ih (windUpdate m o d st) hr hin

/-- C8: a trail segment inserted fresh (age 0) with positive life L is absent
from the active segment set after any run of update calls whose time steps
are non-negative and cover at least L, given the positive age-decay factor
the wind module configures (its default decay is 0.06).  The segment's
unique aged image after the run is not among the surviving segments. -/
theorem trail_segment_decay (m : MathOps) (o : WindOpts) (st : WindState)
    (dts : List ℚ) (seg : TrailSegment) (hmem : seg ∈ st.segments)
    (hage : seg.age = 0) (hL : 0 < seg.life) (hdts : ∀ d ∈ dts, 0 ≤ d)
    (hdec : 0 < o.decay) (hcover : seg.life ≤ dts.sum) :
    ageSeg ((1 + o.decay) * dts.sum) seg
      ∉ (runWindUpdates m o st dts).segments := by
  intro hin
  have hne : dts ≠ [] := by
    intro h
    subst h
    simp only [List.sum_nil] at hcover
    linarith
  have h1 := runWindUpdates_mem_le m o dts st hne _ hin
  unfold ageSeg at h1
  dsimp only at h1
  have hsum : seg.life ≤ dts.sum := hcover
  nlinarith [mul_pos hdec hL]

theorem trail_segment_decay_witness :
    ageSeg ((1 + windDefaults.decay) * ([(11/10 : ℚ), 11/10]).sum)
      { wSeg with age := 0 }
      ∉ (runWindUpdates wMath windDefaults
          { time := 0, lastSpeed := 0, segments := [{ wSeg with age := 0 }] }
          [(11/10 : ℚ), 11/10]).segments :=
  trail_segment_decay wMath windDefaults
    { time := 0, lastSpeed := 0, segments := [{ wSeg with age := 0 }] }
    [(11/10 : ℚ), 11/10] { wSeg with age := 0 } (by simp) rfl (by norm_num [wSeg])
    (by intro d hd; simp only [List.mem_cons, List.not_mem_nil, or_false] at hd; rcases hd with h | h <;> rw [h] <;> norm_num)
    (by norm_num [windDefaults]) (by norm_num [wSeg])
-- List toolkit for the bin update pattern

theorem binAdd_length (l : List ℚ) (i : ℕ) (a : ℚ) :
    (binAdd l i a).length = l.length := List.length_set l i _

theorem binAdd_getD_self (l : List ℚ) (i : ℕ) (a : ℚ) (h : i < l.length) :
    (binAdd l i a).getD i 0 = l.getD i 0 + a := by
  unfold binAdd
  rw [List.getD_eq_getElem?_getD, List.getElem?_set_self (by omega)]
  simp

theorem binAdd_getD_ne (l : List ℚ) (i j : ℕ) (a : ℚ) (h : j ≠ i) :
    (binAdd l i a).getD j 0 = l.getD j 0 := by
  unfold binAdd
  rw [List.getD_eq_getElem?_getD, List.getElem?_set_ne (by omega),
    ← List.getD_eq_getElem?_getD]

theorem sum_set (l : List ℚ) (i : ℕ) (a : ℚ) (h : i < l.length) :
    (l.set i a).sum = l.sum - l.getD i 0 + a := by
  induction l generalizing i with
  | nil => simp at h
  | cons x xs ih =>
    cases i with
    | zero => simp [List.set]; ring
    | succ n =>
      simp only [List.set, List.sum_cons, List.getD_cons_succ]
      rw [ih n (by simpa using h)]
      ring

theorem binAdd_sum (l : List ℚ) (i : ℕ) (a : ℚ) (h : i < l.length) :
    (binAdd l i a).sum = l.sum + a := by
  unfold binAdd
  rw [sum_set l i _ h]
  ring

theorem binAdd_sum_oob (l : List ℚ) (i : ℕ) (a : ℚ) (h : l.length ≤ i) :
    binAdd l i a = l := by
  unfold binAdd
  exact List.set_eq_of_length_le h

theorem binAdd_getD_le (l : List ℚ) (i j : ℕ) (a : ℚ) (ha : 0 ≤ a) :
    l.getD j 0 ≤ (binAdd l i a).getD j 0 := by
  rcases eq_or_ne j i with rfl | hne
  · rcases lt_or_le j l.length with h | h
    · rw [binAdd_getD_self l j a h]
      linarith
    · rw [binAdd_sum_oob l j a h]
  · rw [binAdd_getD_ne l i j a hne]

-- Quantitative facts about the addToGround spreading loop

theorem depositTargets_spec (dune : ℕ → ℚ) (dc share : ℚ) (ts : List ℕ)
    (bins : List ℚ) (rem : ℚ) (hsh : 0 ≤ share)
    (hts : ∀ t ∈ ts, t < bins.length) :
    (depositTargets dune dc share ts bins rem).1.length = bins.length ∧
    (depositTargets dune dc share ts bins rem).1.sum
      = bins.sum + (rem - (depositTargets dune dc share ts bins rem).2) ∧
    rem - share * ts.length ≤ (depositTargets dune dc share ts bins rem).2 ∧
    (depositTargets dune dc share ts bins rem).2 ≤ rem ∧
    (∀ j, bins.getD j 0 ≤ (depositTargets dune dc share ts bins rem).1.getD j 0) := by
  induction ts generalizing bins rem with
  | nil =>
    refine ⟨rfl, by simp [depositTargets], ?_, le_refl _, fun j => le_refl _⟩
    simp only [List.length_nil, Nat.cast_zero, mul_zero, depositTargets]
    linarith
  | cons t ts ih =>
    have htlt : t < bins.length := hts t (List.mem_cons_self t ts)
    have hts' : ∀ u ∈ ts, u < (binAdd bins t (min (max 0 (capF dune dc t - bins.getD t 0)) share)).length := by
      intro u hu
      rw [binAdd_length]
      exact hts u (List.mem_cons_of_mem t hu)
    set add := min (max 0 (capF dune dc t - bins.getD t 0)) share with hadd
    have hadd0 : 0 ≤ add := le_min (le_max_left _ _) hsh
    have haddsh : add ≤ share := min_le_right _ _
    have h0 := ih (binAdd bins t add) (rem - add) hts'
    simp only [depositTargets]
    refine ⟨?_, ?_, ?_, ?_, ?_⟩
    · rw [h0.1, binAdd_length]
    · rw [h0.2.1, binAdd_sum bins t add htlt]
      ring
    · have := h0.2.2.1
      simp only [List.length_cons, Nat.cast_succ]
      push_cast
      nlinarith [this]
    · have := h0.2.2.2.1
      linarith
    · intro j
      exact (binAdd_getD_le bins t j add hadd0).trans (h0.2.2.2.2 j)

theorem ringTargets_lt (len idxCenter radius : ℕ) (hidx : idxCenter < len) :
    ∀ t ∈ ringTargets len idxCenter radius, t < len := by
  intro t ht
  unfold ringTargets at ht
  rw [List.mem_append] at ht
  rcases ht with h | h
  · split at h
    · simp only [List.mem_singleton] at h
      omega
    · simp at h
  · split at h
    · simp only [List.mem_singleton] at h
      rename_i hcond
      omega
    · simp at h

theorem share_mul_le (rem : ℚ) (n : ℕ) (h : 0 ≤ rem) :
    rem / ((max 1 n : ℕ) : ℚ) * (n : ℚ) ≤ rem := by
  rcases Nat.eq_zero_or_pos n with h0 | h0
  · rw [h0]
    simp only [Nat.cast_zero, mul_zero]
    linarith
  · have hmx : max 1 n = n := Nat.max_eq_right h0
    rw [hmx, div_mul_cancel₀ _ (Nat.cast_ne_zero.mpr h0.ne' : ((n : ℚ)) ≠ 0)]

theorem addToGroundAux_spec (dune : ℕ → ℚ) (dc : ℚ) (len idxCenter : ℕ)
    (hidx : idxCenter < len) :
    ∀ (fuel radius : ℕ) (bins : List ℚ) (rem : ℚ), 0 ≤ rem →
      bins.length = len →
      (addToGroundAux dune dc len idxCenter radius fuel bins rem).1.length = len ∧
      0 ≤ (addToGroundAux dune dc len idxCenter radius fuel bins rem).2 ∧
      (addToGroundAux dune dc len idxCenter radius fuel bins rem).2 ≤ rem ∧
      (addToGroundAux dune dc len idxCenter radius fuel bins rem).1.sum
        ≤ bins.sum + (rem - (addToGroundAux dune dc len idxCenter radius fuel bins rem).2) ∧
      (∀ j, bins.getD j 0 ≤ (addToGroundAux dune dc len idxCenter radius fuel bins rem).1.getD j 0) := by
  intro fuel
  induction fuel with
  | zero =>
    intro radius bins rem hrem hlen
    simp only [addToGroundAux]
    exact ⟨hlen, hrem, le_refl _, by linarith, fun j => le_refl _⟩
  | succ fuel ih =>
    intro radius bins rem hrem hlen
    simp only [addToGroundAux]
    split
    · exact ⟨hlen, hrem, le_refl _, by simp, fun j => le_refl _⟩
    rename_i hpos
    have hrem' : 0 < rem := lt_of_not_ge fun hh => hpos (by linarith)
    set tgts := ringTargets len idxCenter radius with htg
    have hsh : (0:ℚ) ≤ rem / ((max 1 tgts.length : ℕ) : ℚ) := by
      apply div_nonneg (le_of_lt hrem')
      positivity
    have hts : ∀ t ∈ tgts, t < bins.length := by
      rw [hlen]
      exact ringTargets_lt len idxCenter radius hidx
    have hD := depositTargets_spec dune dc (rem / ((max 1 tgts.length : ℕ) : ℚ)) tgts bins rem hsh hts
    set p := depositTargets dune dc (rem / ((max 1 tgts.length : ℕ) : ℚ)) tgts bins rem with hp
    have hshm := share_mul_le rem tgts.length (le_of_lt hrem')
    have hmid0 : 0 ≤ p.2 := by
      have hlb := hD.2.2.1
      linarith
    have hlen2 : p.1.length = len := by rw [hD.1, hlen]
    have hrec := ih (radius + 1) p.1 (p.2 * (11/20)) (by linarith) hlen2
    refine ⟨hrec.1, hrec.2.1, ?_, ?_, ?_⟩
    · have h1 := hrec.2.2.1
      have h2 := hD.2.2.2.1
      linarith
    · have h1 := hrec.2.2.2.1
      have h2 := hD.2.1
      linarith
    · intro j
      exact (hD.2.2.2.2 j).trans (hrec.2.2.2.2 j)

theorem groundCenter_lt (posX : Option ℚ) (ctx : Ctx) (len : ℕ)
    (h : 1 ≤ len) : groundCenter posX ctx len < len := by
  unfold groundCenter
  dsimp only
  have h1 : clampI 0 ((len : ℤ) - 1)
      ((match posX with
        | none => (len : ℤ) / 2
        | some px => clampI 0 ((len : ℤ) - 1) ⌊(px / ctx.width) * ((len : ℚ) - 1)⌋) +
        roundJS ((if 0 < ctx.groundWindMax then
          clamp (-1) 1 (ctx.groundWindX / ctx.groundWindMax) else 0) * 4))
      ≤ (len : ℤ) - 1 := min_le_left _ _
  omega

theorem addToGround_spec (dune : ℕ → ℚ) (amount dc : ℚ) (posX : Option ℚ)
    (ctx : Ctx) :
    0 ≤ (addToGround dune amount dc posX ctx).1 ∧
    (addToGround dune amount dc posX ctx).1 ≤ max 0 amount ∧
    ((addToGround dune amount dc posX ctx).2).ground.sum
      ≤ ctx.ground.sum + (addToGround dune amount dc posX ctx).1 ∧
    ((addToGround dune amount dc posX ctx).2).ground.length
      = ctx.ground.length ∧
    (∀ j, ctx.ground.getD j 0
      ≤ ((addToGround dune amount dc posX ctx).2).ground.getD j 0) := by
  unfold addToGround
  dsimp only
  split
  · exact ⟨le_refl _,
      le_max_left _ _,
      (by show ctx.ground.sum ≤ ctx.ground.sum + (0:ℚ); linarith),
      rfl, fun j => le_refl _⟩
  rename_i hamt
  have hamt' : (0:ℚ) < amount := lt_of_not_ge fun hh => hamt (by linarith)
  split
  · refine ⟨le_min (le_max_left _ _) (le_of_lt hamt'), ?_, ?_, rfl, fun j => le_refl _⟩
    · exact le_max_of_le_right (min_le_right _ _)
    · show ctx.ground.sum ≤ ctx.ground.sum + min (max 0 (dc * (3/2) - ctx.groundDepth)) amount
      have : (0:ℚ) ≤ min (max 0 (dc * (3/2) - ctx.groundDepth)) amount :=
        le_min (le_max_left _ _) (le_of_lt hamt')
      linarith
  rename_i hlen0
  have hlen1 : 1 ≤ ctx.ground.length := Nat.one_le_iff_ne_zero.mpr hlen0
  have hidx := groundCenter_lt posX ctx ctx.ground.length hlen1
  have hA := addToGroundAux_spec dune dc ctx.ground.length
    (groundCenter posX ctx ctx.ground.length) hidx ctx.ground.length 0
    ctx.ground amount (le_of_lt hamt') rfl
  have key : 0 ≤ amount - (addToGroundAux dune dc ctx.ground.length
        (groundCenter posX ctx ctx.ground.length) 0 ctx.ground.length
        ctx.ground amount).2 ∧
      amount - (addToGroundAux dune dc ctx.ground.length
        (groundCenter posX ctx ctx.ground.length) 0 ctx.ground.length
        ctx.ground amount).2 ≤ max 0 amount ∧
      (addToGroundAux dune dc ctx.ground.length
        (groundCenter posX ctx ctx.ground.length) 0 ctx.ground.length
        ctx.ground amount).1.sum
        ≤ ctx.ground.sum + (amount - (addToGroundAux dune dc ctx.ground.length
          (groundCenter posX ctx ctx.ground.length) 0 ctx.ground.length
          ctx.ground amount).2) ∧
      (addToGroundAux dune dc ctx.ground.length
        (groundCenter posX ctx ctx.ground.length) 0 ctx.ground.length
        ctx.ground amount).1.length = ctx.ground.length ∧
      (∀ j, ctx.ground.getD j 0 ≤ (addToGroundAux dune dc ctx.ground.length
        (groundCenter posX ctx ctx.ground.length) 0 ctx.ground.length
        ctx.ground amount).1.getD j 0) := by
    refine ⟨by linarith [hA.2.2.1], ?_, by linarith [hA.2.2.2.1], hA.1, hA.2.2.2.2⟩
    exact le_max_of_le_right (by linarith [hA.2.1])
  exact key

theorem binAdd_cap (bins : List ℚ) (t j : ℕ) (add : ℚ) (capG : ℕ → ℚ)
    (hj : bins.getD j 0 ≤ capG j)
    (ht : add ≤ max 0 (capG t - bins.getD t 0)) :
    (binAdd bins t add).getD j 0 ≤ capG j := by
  rcases eq_or_ne j t with rfl | hne
  · rcases lt_or_le j bins.length with h | h
    · rw [binAdd_getD_self bins j add h]
      have : max 0 (capG j - bins.getD j 0) = capG j - bins.getD j 0 ∨
          max 0 (capG j - bins.getD j 0) = 0 := by
        rcases le_total 0 (capG j - bins.getD j 0) with hh | hh
        · exact Or.inl (max_eq_right hh)
        · exact Or.inr (max_eq_left hh)
      rcases this with h2 | h2 <;> rw [h2] at ht <;> linarith
    · rw [binAdd_sum_oob bins j add h]
      exact hj
  · rw [binAdd_getD_ne bins t j add hne]
    exact hj

theorem depositTargets_cap (dune : ℕ → ℚ) (dc share : ℚ) (ts : List ℕ)
    (bins : List ℚ) (rem : ℚ) (hsh : 0 ≤ share)
    (hcap : ∀ j, bins.getD j 0 ≤ capF dune dc j) :
    ∀ j, (depositTargets dune dc share ts bins rem).1.getD j 0
      ≤ capF dune dc j := by
  induction ts generalizing bins rem with
  | nil => exact hcap
  | cons t ts ih =>
    simp only [depositTargets]
    apply ih
    intro j
    exact binAdd_cap bins t j _ (capF dune dc) (hcap j) (min_le_left _ _)

theorem addToGroundAux_cap (dune : ℕ → ℚ) (dc : ℚ) (len idxCenter : ℕ)
    (hidx : idxCenter < len) :
    ∀ (fuel radius : ℕ) (bins : List ℚ) (rem : ℚ), 0 ≤ rem →
      bins.length = len → (∀ j, bins.getD j 0 ≤ capF dune dc j) →
      ∀ j, (addToGroundAux dune dc len idxCenter radius fuel bins rem).1.getD j 0
        ≤ capF dune dc j := by
  intro fuel
  induction fuel with
  | zero =>
    intro radius bins rem hrem hlen hcap
    simp only [addToGroundAux]
    exact hcap
  | succ fuel ih =>
    intro radius bins rem hrem hlen hcap
    simp only [addToGroundAux]
    split
    · exact hcap
    rename_i hpos
    have hrem' : 0 < rem := lt_of_not_ge fun hh => hpos (by linarith)
    set tgts := ringTargets len idxCenter radius with htg
    have hsh : (0:ℚ) ≤ rem / ((max 1 tgts.length : ℕ) : ℚ) := by
      apply div_nonneg (le_of_lt hrem')
      positivity
    have hts : ∀ t ∈ tgts, t < bins.length := by
      rw [hlen]
      exact ringTargets_lt len idxCenter radius hidx
    have hD := depositTargets_spec dune dc (rem / ((max 1 tgts.length : ℕ) : ℚ))
      tgts bins rem hsh hts
    have hDc := depositTargets_cap dune dc (rem / ((max 1 tgts.length : ℕ) : ℚ))
      tgts bins rem hsh hcap
    have hshm := share_mul_le rem tgts.length (le_of_lt hrem')
    have hmid0 : 0 ≤ (depositTargets dune dc (rem / ((max 1 tgts.length : ℕ) : ℚ))
        tgts bins rem).2 := by
      have hlb := hD.2.2.1
      linarith
    have hlen2 : (depositTargets dune dc (rem / ((max 1 tgts.length : ℕ) : ℚ))
        tgts bins rem).1.length = len := by rw [hD.1, hlen]
    exact ih (radius + 1) _ _ (by linarith) hlen2 hDc

theorem addToGround_cap (dune : ℕ → ℚ) (amount dc : ℚ) (posX : Option ℚ)
    (ctx : Ctx) (hcap : ∀ j, ctx.ground.getD j 0 ≤ capF dune dc j) :
    ∀ j, ((addToGround dune amount dc posX ctx).2).ground.getD j 0
      ≤ capF dune dc j := by
  unfold addToGround
  dsimp only
  split
  · exact hcap
  rename_i hamt
  have hamt' : (0:ℚ) < amount := lt_of_not_ge fun hh => hamt (by linarith)
  split
  · exact hcap
  rename_i hlen0
  have hlen1 : 1 ≤ ctx.ground.length := Nat.one_le_iff_ne_zero.mpr hlen0
  have hidx := groundCenter_lt posX ctx ctx.ground.length hlen1
  have key := addToGroundAux_cap dune dc ctx.ground.length
    (groundCenter posX ctx ctx.ground.length) hidx ctx.ground.length 0
    ctx.ground amount (le_of_lt hamt') rfl hcap
  exact key

-- Claims C2 and C6

/-- Constant interpretation of the dune noise used in concrete runs
(noise1d value 0, so 0.5 + 0.5 * noise1d is 1/2). -/
def dune0 : ℕ → ℚ := fun _ => 1/2

/-- Concrete context with a large budget for the deposition scenarios. -/
def cCtx : Ctx :=
  { budget := 1000, budgetMax := 1000, ground := [0, 0, 0], groundDepth := 0
    groundWindX := 0, groundWindMax := 0, width := 100 }

/-- C2 counterexample: in the claimed scenario (deposit 50 into an empty
target bin with depth cap 10 and one empty neighbor on each side also capped
at 10, ample ground capacity and budget), the code does not leave the
neighbors at 10 and does not route 20 to ground: 60 percent of the
post-target remainder goes to ground before the neighbor split, so the
neighbors end at 8 and the ground receives 24. -/
theorem deposit_spill_order_counterexample :
    (addSnowToBins dune0 [0, 0, 0] 1 50 1 10 40 none cCtx).1 ≠ [10, 10, 10] ∧
      ((addSnowToBins dune0 [0, 0, 0] 1 50 1 10 40 none cCtx).2).ground.sum
        ≠ 20 := by
  constructor <;>
    norm_num +decide [addSnowToBins, consumeBudget, addToGround, addToGroundAux,
      depositTargets, ringTargets, groundCenter, capF, binAdd, clamp, clampI,
      roundJS, refundBudget, depositFinish, spillNeighbors, dune0, cCtx]

/-- C2 amended: after filling the target bin to its cap, addSnowToBins routes
60 percent of the remainder to the ground field (scaled by groundFactor) and
splits only the remaining 40 percent evenly between the existing lateral
neighbors, each capped the same way, with per-neighbor overflow routed
onward to ground; in the scenario the target ends at 10, each neighbor at 8,
the ground receives 24, and the budget is debited by the full 50. -/
theorem deposit_spill_order :
    (addSnowToBins dune0 [0, 0, 0] 1 50 1 10 40 none cCtx).1 = [8, 10, 8] ∧
      ((addSnowToBins dune0 [0, 0, 0] 1 50 1 10 40 none cCtx).2).ground
        = [0, 24, 0] ∧
      ((addSnowToBins dune0 [0, 0, 0] 1 50 1 10 40 none cCtx).2).budget
        = cCtx.budget - 50 := by
  refine ⟨?_, ?_, ?_⟩ <;>
    norm_num +decide [addSnowToBins, consumeBudget, addToGround, addToGroundAux,
      depositTargets, ringTargets, groundCenter, capF, binAdd, clamp, clampI,
      roundJS, refundBudget, depositFinish, spillNeighbors, dune0, cCtx]

theorem refundBudget_ground (x : ℚ) (ctx : Ctx) :
    (refundBudget x ctx).ground = ctx.ground := by
  unfold refundBudget
  split <;> rfl

theorem clamp_eq_self (lo hi v : ℚ) (h1 : lo ≤ v) (h2 : v ≤ hi) :
    clamp lo hi v = v := by
  unfold clamp
  rw [max_eq_right h1, min_eq_right h2]

theorem consumeBudget_full (amount : ℚ) (ctx : Ctx) (h1 : 0 < amount)
    (h2 : amount ≤ ctx.budget) : (consumeBudget amount ctx).1 = amount := by
  rw [consumeBudget_fst, max_eq_right (by linarith), min_eq_left h2]

theorem consumeBudget_ground (amount : ℚ) (ctx : Ctx) :
    ((consumeBudget amount ctx).2).ground = ctx.ground := rfl

/-- C6 amended: with an out-of-range target index, addSnowToBins performs no
surface-bin write (the embedding is total, mirroring that the source indexes
no array on this path), routes the granted amount scaled by groundFactor to
the ground field, debits the budget by exactly the amount the ground deposit
reports, and refunds all the rest; the routed amount never exceeds
granted * groundFactor and the ground mass grows by at most the debit. -/
theorem oob_deposit_routing (dune : ℕ → ℚ) (bins : List ℚ) (idx : ℤ)
    (amount gf dl dc : ℚ) (posX : Option ℚ) (ctx : Ctx)
    (hoob : idx < 0 ∨ (bins.length : ℤ) ≤ idx) (hamt : 0 < amount)
    (hbud : amount ≤ ctx.budget) (hmax : ctx.budget ≤ ctx.budgetMax)
    (hgf0 : 0 ≤ gf) (hgf1 : gf ≤ 1) :
    (addSnowToBins dune bins idx amount gf dl dc posX ctx).1 = bins ∧
      ((addSnowToBins dune bins idx amount gf dl dc posX ctx).2).ground
        = ((addToGround dune (amount * gf) dc posX
            ((consumeBudget amount ctx).2)).2).ground ∧
      ((addSnowToBins dune bins idx amount gf dl dc posX ctx).2).budget
        = ctx.budget - (addToGround dune (amount * gf) dc posX
            ((consumeBudget amount ctx).2)).1 ∧
      (addToGround dune (amount * gf) dc posX
          ((consumeBudget amount ctx).2)).1 ≤ amount * gf ∧
      ((addToGround dune (amount * gf) dc posX
          ((consumeBudget amount ctx).2)).2).ground.sum
        ≤ ctx.ground.sum + (addToGround dune (amount * gf) dc posX
            ((consumeBudget amount ctx).2)).1 := by
  have hg := consumeBudget_full amount ctx hamt hbud
  unfold addSnowToBins
  dsimp only
  rw [if_neg (not_le.mpr hamt)]
  rcases hE : consumeBudget amount ctx with ⟨granted, ctx1⟩
  have hgr : granted = amount := by rw [← hg, hE]
  subst hgr
  dsimp only
  rw [if_neg (not_le.mpr hamt), if_pos hoob]
  have hE2 : (consumeBudget granted ctx).2 = ctx1 := by rw [hE]
  have hg1 : ctx1.ground = ctx.ground := by
    rw [← hE2, consumeBudget_ground]
  rcases hG : addToGround dune (granted * gf) dc posX ctx1 with ⟨g, ctx2⟩
  dsimp only
  have hA := addToGround_spec dune (granted * gf) dc posX ctx1
  rw [hG] at hA
  dsimp only at hA
  have hg0 : 0 ≤ g := hA.1
  have hle : g ≤ granted * gf := by
    have h2 : max 0 (granted * gf) = granted * gf :=
      max_eq_right (mul_nonneg (le_of_lt hamt) hgf0)
    have h3 := hA.2.1
    rw [h2] at h3
    exact h3
  have hgg : g ≤ granted := by
    have h5 : granted * gf ≤ granted * 1 :=
      mul_le_mul_of_nonneg_left hgf1 (le_of_lt hamt)
    nlinarith
  have hctx1b : ctx1.budget = ctx.budget - granted := by
    rw [← hE2, consumeBudget_budget, max_eq_right (by linarith), min_eq_left hbud]
  have hctx2b : ctx2.budget = ctx.budget - granted := by
    have h4 := addToGround_budget dune (granted * gf) dc posX ctx1
    rw [hG] at h4
    dsimp only at h4
    rw [h4, hctx1b]
  have hctx2m : ctx2.budgetMax = ctx.budgetMax := by
    have h4 := addToGround_budgetMax dune (granted * gf) dc posX ctx1
    rw [hG] at h4
    dsimp only at h4
    rw [h4, ← hE2, consumeBudget_budgetMax]
  refine ⟨rfl, refundBudget_ground _ _, ?_, hle, by rw [← hg1]; exact hA.2.2.1⟩
  rw [refundBudget_budget]
  split
  · rename_i hno
    have hga : g = granted := by linarith
    rw [hctx2b, hga]
  · rw [hctx2b, hctx2m]
    rw [clamp_eq_self _ _ _ (by linarith) (by linarith)]
    ring

theorem oob_deposit_routing_witness :
    (addSnowToBins dune0 [5] 5 10 (1/2) 10 40 none cCtx).1 = [5] ∧
      ((addSnowToBins dune0 [5] 5 10 (1/2) 10 40 none cCtx).2).ground
        = ((addToGround dune0 (10 * (1/2)) 40 none
            ((consumeBudget 10 cCtx).2)).2).ground ∧
      ((addSnowToBins dune0 [5] 5 10 (1/2) 10 40 none cCtx).2).budget
        = cCtx.budget - (addToGround dune0 (10 * (1/2)) 40 none
            ((consumeBudget 10 cCtx).2)).1 ∧
      (addToGround dune0 (10 * (1/2)) 40 none
          ((consumeBudget 10 cCtx).2)).1 ≤ 10 * (1/2) ∧
      ((addToGround dune0 (10 * (1/2)) 40 none
          ((consumeBudget 10 cCtx).2)).2).ground.sum
        ≤ cCtx.ground.sum + (addToGround dune0 (10 * (1/2)) 40 none
            ((consumeBudget 10 cCtx).2)).1 :=
  oob_deposit_routing dune0 [5] 5 10 (1/2) 10 40 none cCtx
    (by norm_num) (by norm_num) (by norm_num [cCtx]) (by norm_num [cCtx])
    (by norm_num) (by norm_num)

/-- C6 counterexample: with the ground factor 0.5 that the only call site
passes, an out-of-range deposit of 10 (full budget, ample ground capacity)
adds only 5 to the ground field, not the entire granted 10; the other 5 is
refunded, so the budget is debited by 5. -/
theorem oob_deposit_counterexample :
    ((addSnowToBins dune0 [5] 5 10 (1/2) 10 40 none cCtx).2).ground.sum
        = cCtx.ground.sum + 5 ∧
      ((addSnowToBins dune0 [5] 5 10 (1/2) 10 40 none cCtx).2).ground.sum
        ≠ cCtx.ground.sum + 10 ∧
      ((addSnowToBins dune0 [5] 5 10 (1/2) 10 40 none cCtx).2).budget
        = cCtx.budget - 5 := by
  refine ⟨?_, ?_, ?_⟩ <;>
    norm_num +decide [addSnowToBins, consumeBudget, addToGround, addToGroundAux,
      depositTargets, ringTargets, groundCenter, capF, binAdd, clamp, clampI,
      roundJS, refundBudget, depositFinish, spillNeighbors, dune0, cCtx]

-- Generic list update lemmas for the ledger proofs

theorem getD_set_self (l : List ℚ) (i : ℕ) (a : ℚ) (h : i < l.length) :
    (l.set i a).getD i 0 = a := by
  rw [List.getD_eq_getElem?_getD, List.getElem?_set_self (by omega)]
  simp

theorem getD_set_ne (l : List ℚ) (i j : ℕ) (a : ℚ) (h : j ≠ i) :
    (l.set i a).getD j 0 = l.getD j 0 := by
  rw [List.getD_eq_getElem?_getD, List.getElem?_set_ne (by omega),
    ← List.getD_eq_getElem?_getD]

theorem sum_map_set {α : Type} (f : α → ℚ) (d : α) (l : List α) (s : ℕ)
    (b : α) (h : s < l.length) :
    ((l.set s b).map f).sum = (l.map f).sum - f (l.getD s d) + f b := by
  induction l generalizing s with
  | nil => simp at h
  | cons x xs ih =>
    cases s with
    | zero =>
      simp only [List.set, List.map_cons, List.sum_cons, List.getD_cons_zero]
      ring
    | succ n =>
      simp only [List.set, List.map_cons, List.sum_cons, List.getD_cons_succ]
      rw [ih n (by simpa using h)]
      ring

theorem foldl_preserve {α β : Type} (P : α → Prop) (f : α → β → α)
    (hf : ∀ a b, P a → P (f a b)) :
    ∀ (l : List β) (a : α), P a → P (l.foldl f a) := by
  intro l
  induction l with
  | nil => intro a h; exact h
  | cons x xs ih => intro a h; exact ih (f a x) (hf a x h)

-- addSnowToBinsRaw accounting

theorem rawSpill_spec (dl share : ℚ) (ns : List ℕ) (bins : List ℚ) (used : ℚ)
    (hsh : 0 ≤ share) (hns : ∀ n ∈ ns, n < bins.length) :
    (rawSpill dl share ns bins used).1.length = bins.length ∧
    (rawSpill dl share ns bins used).1.sum
      = bins.sum + ((rawSpill dl share ns bins used).2 - used) ∧
    used ≤ (rawSpill dl share ns bins used).2 ∧
    (rawSpill dl share ns bins used).2 ≤ used + share * ns.length ∧
    (∀ j, bins.getD j 0 ≤ (rawSpill dl share ns bins used).1.getD j 0) := by
  induction ns generalizing bins used with
  | nil =>
    refine ⟨rfl, ?_, le_refl _, ?_, fun j => le_refl _⟩
    · show bins.sum = bins.sum + (used - used)
      ring
    · show used ≤ used + share * ((([] : List ℕ).length : ℕ) : ℚ)
      simp
  | cons n ns ih =>
    simp only [rawSpill]
    have hn : n < bins.length := hns n (List.mem_cons_self n ns)
    set add := max 0 (min share (dl - bins.getD n 0)) with hadd
    have hadd0 : 0 ≤ add := le_max_left _ _
    have haddsh : add ≤ share := max_le hsh (min_le_left _ _)
    have hns' : ∀ u ∈ ns, u < (binAdd bins n add).length := by
      intro u hu
      rw [binAdd_length]
      exact hns u (List.mem_cons_of_mem n hu)
    have h0 := ih (binAdd bins n add) (used + add) hns'
    refine ⟨by rw [h0.1, binAdd_length], ?_, ?_, ?_, ?_⟩
    · rw [h0.2.1, binAdd_sum bins n add hn]
      ring
    · have := h0.2.2.1
      linarith
    · have := h0.2.2.2.1
      simp only [List.length_cons, Nat.cast_succ]
      nlinarith
    · intro j
      exact (binAdd_getD_le bins n j add hadd0).trans (h0.2.2.2.2 j)

theorem rawSpill_cap (dl share : ℚ) (ns : List ℕ) (bins : List ℚ) (used : ℚ)
    (hcap : ∀ j, bins.getD j 0 ≤ dl) :
    ∀ j, (rawSpill dl share ns bins used).1.getD j 0 ≤ dl := by
  induction ns generalizing bins used with
  | nil => exact hcap
  | cons n ns ih =>
    simp only [rawSpill]
    apply ih
    intro j
    refine binAdd_cap bins n j _ (fun _ => dl) (hcap j) ?_
    rcases le_total (min share (dl - bins.getD n 0)) 0 with h | h
    · rw [max_eq_left h]
      exact le_max_left _ _
    · rw [max_eq_right h]
      exact le_max_of_le_right (min_le_right _ _)

theorem clampI_toNat_lt (len : ℕ) (x : ℤ) (h : 1 ≤ len) :
    (clampI 0 ((len : ℤ) - 1) x).toNat < len := by
  have h1 : clampI 0 ((len : ℤ) - 1) x ≤ (len : ℤ) - 1 := min_le_left _ _
  omega

theorem neighbors_lt (s len : ℕ) (hs : s < len) :
    ∀ n ∈ (if 0 < s then [s - 1] else []) ++
      (if s < len - 1 then [s + 1] else []), n < len := by
  intro n hn
  rw [List.mem_append] at hn
  rcases hn with h | h
  · split at h
    · simp only [List.mem_singleton] at h
      omega
    · simp at h
  · split at h
    · simp only [List.mem_singleton] at h
      rename_i hcond
      omega
    · simp at h

theorem addSnowToBinsRaw_spec (bins : List ℚ) (idx : ℤ) (amount dl : ℚ) :
    (addSnowToBinsRaw bins idx amount dl).1.length = bins.length ∧
    (addSnowToBinsRaw bins idx amount dl).1.sum
      = bins.sum + (addSnowToBinsRaw bins idx amount dl).2 ∧
    0 ≤ (addSnowToBinsRaw bins idx amount dl).2 ∧
    (addSnowToBinsRaw bins idx amount dl).2 ≤ max 0 amount ∧
    (∀ j, bins.getD j 0 ≤ (addSnowToBinsRaw bins idx amount dl).1.getD j 0) := by
  unfold addSnowToBinsRaw
  dsimp only
  split
  · exact ⟨rfl, by ring_nf, le_refl _, le_max_left _ _, fun j => le_refl _⟩
  rename_i hguard
  push_neg at hguard
  have hamt : (0:ℚ) < amount := hguard.1
  have hlen : 1 ≤ bins.length := Nat.one_le_iff_ne_zero.mpr hguard.2
  set s := (clampI 0 ((bins.length : ℤ) - 1) idx).toNat with hsdef
  have hslt : s < bins.length := clampI_toNat_lt bins.length idx hlen
  rcases hS : (if 0 < dl - bins.getD s 0 then
      (binAdd bins s (min amount (dl - bins.getD s 0)),
        amount - min amount (dl - bins.getD s 0),
        min amount (dl - bins.getD s 0))
    else (bins, amount, (0:ℚ))) with ⟨bins1, rem1, used1⟩
  have hstep : bins1.length = bins.length ∧ bins1.sum = bins.sum + used1 ∧
      0 ≤ used1 ∧ used1 + rem1 = amount ∧ 0 ≤ rem1 ∧
      (∀ j, bins.getD j 0 ≤ bins1.getD j 0) := by
    by_cases hc : 0 < dl - bins.getD s 0
    · rw [if_pos hc] at hS
      injection hS with h1 h23
      injection h23 with h2 h3
      subst h1
      subst h2
      subst h3
      have hadd0 : (0:ℚ) ≤ min amount (dl - bins.getD s 0) :=
        le_min (le_of_lt hamt) (le_of_lt hc)
      refine ⟨binAdd_length _ _ _, binAdd_sum bins s _ hslt, hadd0, by ring, ?_,
        fun j => binAdd_getD_le bins s j _ hadd0⟩
      have := min_le_left amount (dl - bins.getD s 0)
      linarith
    · rw [if_neg hc] at hS
      injection hS with h1 h23
      injection h23 with h2 h3
      subst h1
      subst h2
      subst h3
      exact ⟨rfl, by ring, le_refl _, by ring, le_of_lt hamt, fun j => le_refl _⟩
  obtain ⟨hl1, hsum1, hu0, hur, hr0, hpt1⟩ := hstep
  dsimp only
  split
  · rename_i hrem
    dsimp only
    refine ⟨hl1, hsum1, hu0, ?_, hpt1⟩
    rw [max_eq_right (le_of_lt hamt)]
    linarith
  rename_i hrem
  have hrem1 : (0:ℚ) < rem1 := lt_of_not_ge fun hh => hrem (by linarith)
  set nbrs : List ℕ := (if 0 < s then [s - 1] else []) ++
    (if s < bins.length - 1 then [s + 1] else []) with hnbrs
  split
  · dsimp only
    refine ⟨hl1, hsum1, hu0, ?_, hpt1⟩
    rw [max_eq_right (le_of_lt hamt)]
    linarith
  rename_i hne
  have hnlen : 1 ≤ nbrs.length := by
    rcases Nat.eq_zero_or_pos nbrs.length with h0 | h0
    · exact absurd (List.length_eq_zero.mp h0) hne
    · exact h0
  have hsh : (0:ℚ) ≤ rem1 / (nbrs.length : ℚ) := by
    apply div_nonneg (le_of_lt hrem1)
    positivity
  have hns : ∀ n ∈ nbrs, n < bins1.length := by
    rw [hl1]
    exact neighbors_lt s bins.length hslt
  have hR := rawSpill_spec dl (rem1 / (nbrs.length : ℚ)) nbrs bins1 used1 hsh hns
  have hcancel : rem1 / (nbrs.length : ℚ) * (nbrs.length : ℚ) = rem1 :=
    div_mul_cancel₀ _ (Nat.cast_ne_zero.mpr (by omega))
  refine ⟨by rw [hR.1, hl1], ?_, ?_, ?_, ?_⟩
  · rw [hR.2.1, hsum1]
    ring
  · have := hR.2.2.1
    linarith
  · have := hR.2.2.2.1
    rw [hcancel] at this
    rw [max_eq_right (le_of_lt hamt)]
    linarith
  · intro j
    exact (hpt1 j).trans (hR.2.2.2.2 j)

theorem addSnowToBinsRaw_cap (bins : List ℚ) (idx : ℤ) (amount dl : ℚ)
    (hcap : ∀ j, bins.getD j 0 ≤ dl) :
    ∀ j, (addSnowToBinsRaw bins idx amount dl).1.getD j 0 ≤ dl := by
  unfold addSnowToBinsRaw
  dsimp only
  split
  · exact hcap
  rename_i hguard
  push_neg at hguard
  set s := (clampI 0 ((bins.length : ℤ) - 1) idx).toNat with hsdef
  rcases hS : (if 0 < dl - bins.getD s 0 then
      (binAdd bins s (min amount (dl - bins.getD s 0)),
        amount - min amount (dl - bins.getD s 0),
        min amount (dl - bins.getD s 0))
    else (bins, amount, (0:ℚ))) with ⟨bins1, rem1, used1⟩
  have hcap1 : ∀ j, bins1.getD j 0 ≤ dl := by
    by_cases hc : 0 < dl - bins.getD s 0
    · rw [if_pos hc] at hS
      injection hS with h1 h23
      subst h1
      intro j
      exact binAdd_cap bins s j _ (fun _ => dl) (hcap j)
        (le_max_of_le_right (min_le_right _ _))
    · rw [if_neg hc] at hS
      injection hS with h1 h23
      subst h1
      exact hcap
  dsimp only
  split
  · exact hcap1
  set nbrs : List ℕ := (if 0 < s then [s - 1] else []) ++
    (if s < bins.length - 1 then [s + 1] else []) with hnbrs
  split
  · exact hcap1
  exact rawSpill_cap dl _ nbrs bins1 used1 hcap1

theorem spillNeighbors_spec (dune : ℕ → ℚ) (gf dl dc : ℚ) (posX : Option ℚ)
    (share : ℚ) (ns : List ℕ) (bins : List ℚ) (used : ℚ) (ctx : Ctx)
    (hsh : 0 ≤ share) (hgf0 : 0 ≤ gf) (hgf1 : gf ≤ 1)
    (hns : ∀ n ∈ ns, n < bins.length) :
    (spillNeighbors dune gf dl dc posX share ns bins used ctx).1.length
      = bins.length ∧
    used ≤ (spillNeighbors dune gf dl dc posX share ns bins used ctx).2.1 ∧
    (spillNeighbors dune gf dl dc posX share ns bins used ctx).2.1
      ≤ used + share * ns.length ∧
    ((spillNeighbors dune gf dl dc posX share ns bins used ctx).1.sum - bins.sum)
      + (((spillNeighbors dune gf dl dc posX share ns bins used ctx).2.2).ground.sum
        - ctx.ground.sum)
      ≤ (spillNeighbors dune gf dl dc posX share ns bins used ctx).2.1 - used ∧
    ((spillNeighbors dune gf dl dc posX share ns bins used ctx).2.2).ground.length
      = ctx.ground.length ∧
    ((spillNeighbors dune gf dl dc posX share ns bins used ctx).2.2).budget
      = ctx.budget ∧
    (∀ j, bins.getD j 0
      ≤ (spillNeighbors dune gf dl dc posX share ns bins used ctx).1.getD j 0) ∧
    (∀ j, ctx.ground.getD j 0
      ≤ ((spillNeighbors dune gf dl dc posX share ns bins used ctx).2.2).ground.getD j 0) := by
  induction ns generalizing bins used ctx with
  | nil =>
    refine ⟨rfl, le_refl _, ?_,
      (by show (bins.sum - bins.sum) + (ctx.ground.sum - ctx.ground.sum) ≤ used - used
          linarith),
      rfl, rfl, fun j => le_refl _, fun j => le_refl _⟩
    show used ≤ used + share * ((([] : List ℕ).length : ℕ) : ℚ)
    simp
  | cons n ns ih =>
    simp only [spillNeighbors]
    have hn : n < bins.length := hns n (List.mem_cons_self n ns)
    set add := max 0 (min share (dl - bins.getD n 0)) with hadd
    have hadd0 : 0 ≤ add := le_max_left _ _
    have haddsh : add ≤ share := max_le hsh (min_le_left _ _)
    have hns' : ∀ u ∈ ns, u < (binAdd bins n add).length := by
      intro u hu
      rw [binAdd_length]
      exact hns u (List.mem_cons_of_mem n hu)
    split
    · rename_i hlft
      rcases hG : addToGround dune ((share - add) * gf) dc posX ctx with ⟨g, ctx1⟩
      have hA := addToGround_spec dune ((share - add) * gf) dc posX ctx
      rw [hG] at hA
      dsimp only at hA
      have hgb := addToGround_budget dune ((share - add) * gf) dc posX ctx
      rw [hG] at hgb
      dsimp only at hgb
      have hglf : g ≤ share - add := by
        have h1 := hA.2.1
        have h2 : max 0 ((share - add) * gf) = (share - add) * gf :=
          max_eq_right (mul_nonneg (by linarith) hgf0)
        rw [h2] at h1
        nlinarith [hA.1]
      have h0 := ih (binAdd bins n add) (used + add + g) ctx1 hns'
      refine ⟨by rw [h0.1, binAdd_length], ?_, ?_, ?_, ?_, ?_, ?_, ?_⟩
      · have := h0.2.1
        linarith [hA.1]
      · have := h0.2.2.1
        simp only [List.length_cons, Nat.cast_succ]
        nlinarith [hA.1]
      · have hm := h0.2.2.2.1
        rw [binAdd_sum bins n add hn] at hm
        have hgs := hA.2.2.1
        linarith
      · rw [h0.2.2.2.2.1, hA.2.2.2.1]
      · rw [h0.2.2.2.2.2.1, hgb]
      · intro j
        exact (binAdd_getD_le bins n j add hadd0).trans (h0.2.2.2.2.2.2.1 j)
      · intro j
        exact (hA.2.2.2.2 j).trans (h0.2.2.2.2.2.2.2 j)
    · have h0 := ih (binAdd bins n add) (used + add) ctx hns'
      refine ⟨by rw [h0.1, binAdd_length], ?_, ?_, ?_, h0.2.2.2.2.1, h0.2.2.2.2.2.1, ?_, h0.2.2.2.2.2.2.2⟩
      · have := h0.2.1
        linarith
      · have := h0.2.2.1
        simp only [List.length_cons, Nat.cast_succ]
        nlinarith
      · have hm := h0.2.2.2.1
        rw [binAdd_sum bins n add hn] at hm
        linarith
      · intro j
        exact (binAdd_getD_le bins n j add hadd0).trans (h0.2.2.2.2.2.2.1 j)

theorem spillNeighbors_cap (dune : ℕ → ℚ) (gf dl dc : ℚ) (posX : Option ℚ)
    (share : ℚ) (ns : List ℕ) (bins : List ℚ) (used : ℚ) (ctx : Ctx)
    (hcap : ∀ j, bins.getD j 0 ≤ dl)
    (hgcap : ∀ j, ctx.ground.getD j 0 ≤ capF dune dc j) :
    (∀ j, (spillNeighbors dune gf dl dc posX share ns bins used ctx).1.getD j 0 ≤ dl) ∧
    (∀ j, ((spillNeighbors dune gf dl dc posX share ns bins used ctx).2.2).ground.getD j 0
      ≤ capF dune dc j) := by
  induction ns generalizing bins used ctx with
  | nil => exact ⟨hcap, hgcap⟩
  | cons n ns ih =>
    simp only [spillNeighbors]
    set add := max 0 (min share (dl - bins.getD n 0)) with hadd
    have hcap1 : ∀ j, (binAdd bins n add).getD j 0 ≤ dl := by
      intro j
      refine binAdd_cap bins n j _ (fun _ => dl) (hcap j) ?_
      show add ≤ max 0 (dl - bins.getD n 0)
      rw [hadd]
      rcases le_total (min share (dl - bins.getD n 0)) 0 with h | h
      · rw [max_eq_left h]
        exact le_max_left _ _
      · rw [max_eq_right h]
        exact le_max_of_le_right (min_le_right _ _)
    split
    · rcases hG : addToGround dune ((share - add) * gf) dc posX ctx with ⟨g, ctx1⟩
      have hgc := addToGround_cap dune ((share - add) * gf) dc posX ctx hgcap
      rw [hG] at hgc
      dsimp only at hgc
      exact ih (binAdd bins n add) (used + add + g) ctx1 hcap1 hgc
    · exact ih (binAdd bins n add) (used + add) ctx hcap1 hgcap

theorem depositFinish_ground (A U : ℚ) (ctx : Ctx) :
    (depositFinish A U ctx).ground = ctx.ground := by
  unfold depositFinish
  dsimp only
  split
  · exact refundBudget_ground _ _
  · rfl

theorem depositFinish_budget (A U : ℚ) (ctx : Ctx) (hU : U ≤ A)
    (h0 : 0 ≤ ctx.budget + (A - U)) (hM : ctx.budget + (A - U) ≤ ctx.budgetMax) :
    (depositFinish A U ctx).budget = ctx.budget + (A - U) := by
  unfold depositFinish
  dsimp only
  split
  · rename_i h
    have hAU : 0 < A - U := by
      by_contra hc
      push_neg at hc
      rw [max_eq_left hc] at h
      exact absurd h (lt_irrefl 0)
    rw [refundBudget_budget, if_neg (not_le.mpr (by rw [max_eq_right (le_of_lt hAU)]; exact hAU)),
      max_eq_right (le_of_lt hAU), clamp_eq_self _ _ _ h0 hM]
  · rename_i h
    push_neg at h
    have : A - U ≤ 0 := by
      by_contra hc
      push_neg at hc
      rw [max_eq_right (le_of_lt hc)] at h
      linarith
    have hAU : A - U = 0 := le_antisymm this (by linarith)
    rw [hAU]
    ring

/-- Ledger relation between a deposition result and the starting surface and
context: the budget debit covers the mass that appeared in the surface bins
plus the ground bins, lengths are preserved, and no bin ever loses mass. -/
def LedgerOK (bins0 : List ℚ) (ctx0 : Ctx) (r : List ℚ × Ctx) : Prop :=
  r.2.budget + (r.1.sum + r.2.ground.sum)
      ≤ ctx0.budget + (bins0.sum + ctx0.ground.sum) ∧
    r.1.length = bins0.length ∧
    r.2.ground.length = ctx0.ground.length ∧
    (∀ j, bins0.getD j 0 ≤ r.1.getD j 0) ∧
    (∀ j, ctx0.ground.getD j 0 ≤ r.2.ground.getD j 0)

theorem addSnowToBins_ledger (dune : ℕ → ℚ) (bins : List ℚ) (idx : ℤ)
    (amount gf dl dc : ℚ) (posX : Option ℚ) (ctx : Ctx)
    (hbud : amount ≤ ctx.budget) (h0 : 0 ≤ ctx.budget)
    (hmax : ctx.budget ≤ ctx.budgetMax) (hgf0 : 0 ≤ gf) (hgf1 : gf ≤ 1) :
    LedgerOK bins ctx (addSnowToBins dune bins idx amount gf dl dc posX ctx) := by
  unfold addSnowToBins
  dsimp only
  split
  · exact ⟨by dsimp only; linarith, rfl, rfl, fun j => le_refl _, fun j => le_refl _⟩
  rename_i hamt
  have hamt' : (0:ℚ) < amount := lt_of_not_ge hamt
  have hg := consumeBudget_full amount ctx hamt' hbud
  rcases hE : consumeBudget amount ctx with ⟨granted, ctx1⟩
  have hgr : granted = amount := by rw [← hg, hE]
  subst hgr
  have hE2 : (consumeBudget granted ctx).2 = ctx1 := by rw [hE]
  have hb1 : ctx1.budget = ctx.budget - granted := by
    rw [← hE2, consumeBudget_budget, max_eq_right (by linarith), min_eq_left hbud]
  have hm1 : ctx1.budgetMax = ctx.budgetMax := by
    rw [← hE2, consumeBudget_budgetMax]
  have hgr1 : ctx1.ground = ctx.ground := by
    rw [← hE2, consumeBudget_ground]
  dsimp only
  rw [if_neg (not_le.mpr hamt')]
  split
  · rcases hG : addToGround dune (granted * gf) dc posX ctx1 with ⟨g, ctx2⟩
    have hA := addToGround_spec dune (granted * gf) dc posX ctx1
    rw [hG] at hA
    dsimp only at hA
    have hgmax : max 0 (granted * gf) = granted * gf :=
      max_eq_right (mul_nonneg (le_of_lt hamt') hgf0)
    have hgle : g ≤ granted := by
      have h5 : granted * gf ≤ granted * 1 :=
        mul_le_mul_of_nonneg_left hgf1 (le_of_lt hamt')
      have h6 := hA.2.1
      rw [hgmax] at h6
      linarith
    have hb2 : ctx2.budget = ctx.budget - granted := by
      have h4 := addToGround_budget dune (granted * gf) dc posX ctx1
      rw [hG] at h4
      dsimp only at h4
      rw [h4, hb1]
    have hm2 : ctx2.budgetMax = ctx.budgetMax := by
      have h4 := addToGround_budgetMax dune (granted * gf) dc posX ctx1
      rw [hG] at h4
      dsimp only at h4
      rw [h4, hm1]
    have hbr : (refundBudget (granted - g) ctx2).budget = ctx.budget - g := by
      rw [refundBudget_budget]
      split
      · rename_i hno
        have heq : g = granted := le_antisymm hgle (by linarith)
        rw [hb2, heq]
      · rw [hb2, hm2, clamp_eq_self _ _ _ (by linarith [hA.1]) (by linarith)]
        ring
    refine ⟨?_, rfl, ?_, fun j => le_refl _, ?_⟩
    · dsimp only
      rw [hbr, refundBudget_ground]
      have h7 := hA.2.2.1
      rw [hgr1] at h7
      linarith
    · dsimp only
      rw [refundBudget_ground]
      rw [hgr1] at hA
      exact hA.2.2.2.1
    · intro j
      dsimp only
      rw [refundBudget_ground]
      have h8 := hA.2.2.2.2 j
      rw [hgr1] at h8
      exact h8
  · rename_i hinb
    push_neg at hinb
    have hilt : idx.toNat < bins.length := by omega
    rcases hS :
      (if 0 < dl - bins.getD idx.toNat 0 then
        (binAdd bins idx.toNat (min granted (dl - bins.getD idx.toNat 0)),
          granted - min granted (dl - bins.getD idx.toNat 0),
          min granted (dl - bins.getD idx.toNat 0))
      else (bins, granted, (0:ℚ))) with ⟨bins1, rem1, used1⟩
    have hstep : bins1.length = bins.length ∧ bins1.sum = bins.sum + used1 ∧
        0 ≤ used1 ∧ used1 + rem1 = granted ∧ 0 ≤ rem1 ∧
        (∀ j, bins.getD j 0 ≤ bins1.getD j 0) := by
      by_cases hc : 0 < dl - bins.getD idx.toNat 0
      · rw [if_pos hc] at hS
        injection hS with h1 h23
        injection h23 with h2 h3
        subst h1
        subst h2
        subst h3
        have hadd0 : (0:ℚ) ≤ min granted (dl - bins.getD idx.toNat 0) :=
          le_min (le_of_lt hamt') (le_of_lt hc)
        refine ⟨binAdd_length _ _ _, binAdd_sum bins idx.toNat _ hilt, hadd0,
          by ring, ?_, fun j => binAdd_getD_le bins idx.toNat j _ hadd0⟩
        have := min_le_left granted (dl - bins.getD idx.toNat 0)
        linarith
      · rw [if_neg hc] at hS
        injection hS with h1 h23
        injection h23 with h2 h3
        subst h1
        subst h2
        subst h3
        exact ⟨rfl, by ring, le_refl _, by ring, le_of_lt hamt', fun j => le_refl _⟩
    obtain ⟨hl1, hsum1, hu0, hur, hr0, hpt1⟩ := hstep
    dsimp only
    split
    · rename_i hrem
      have hrem0 : rem1 = 0 := le_antisymm hrem hr0
      have hu1g : used1 = granted := by linarith
      have hbr : (refundBudget (granted - used1) ctx1).budget = ctx.budget - used1 := by
        rw [refundBudget_budget, if_pos (by rw [hu1g]; linarith), hb1, hu1g]
      refine ⟨?_, hl1, ?_, hpt1, ?_⟩
      · dsimp only
        rw [hbr, refundBudget_ground, hgr1, hsum1]
        linarith
      · dsimp only
        rw [refundBudget_ground, hgr1]
      · intro j
        dsimp only
        rw [refundBudget_ground, hgr1]
    rename_i hrem
    have hrem1 : (0:ℚ) < rem1 := lt_of_not_ge fun hh => hrem (by linarith)
    rcases hG1 : addToGround dune (rem1 * (3/5) * gf) dc posX ctx1 with ⟨g1, ctx2⟩
    have hA1 := addToGround_spec dune (rem1 * (3/5) * gf) dc posX ctx1
    rw [hG1] at hA1
    dsimp only at hA1
    have hg1nn : 0 ≤ g1 := hA1.1
    have hg1le : g1 ≤ rem1 * (3/5) := by
      have h5 : rem1 * (3/5) * gf ≤ rem1 * (3/5) * 1 :=
        mul_le_mul_of_nonneg_left hgf1 (by linarith)
      have h6 := hA1.2.1
      have h7 : max 0 (rem1 * (3/5) * gf) = rem1 * (3/5) * gf :=
        max_eq_right (mul_nonneg (by linarith) hgf0)
      rw [h7] at h6
      linarith
    have hb2 : ctx2.budget = ctx.budget - granted := by
      have h4 := addToGround_budget dune (rem1 * (3/5) * gf) dc posX ctx1
      rw [hG1] at h4
      dsimp only at h4
      rw [h4, hb1]
    have hm2 : ctx2.budgetMax = ctx.budgetMax := by
      have h4 := addToGround_budgetMax dune (rem1 * (3/5) * gf) dc posX ctx1
      rw [hG1] at h4
      dsimp only at h4
      rw [h4, hm1]
    have hgs2 : ctx2.ground.sum ≤ ctx.ground.sum + g1 := by
      have h7 := hA1.2.2.1
      rw [hgr1] at h7
      exact h7
    have hgl2 : ctx2.ground.length = ctx.ground.length := by
      have := hA1.2.2.2.1
      rw [hgr1] at this
      exact this
    have hgp2 : ∀ j, ctx.ground.getD j 0 ≤ ctx2.ground.getD j 0 := by
      intro j
      have := hA1.2.2.2.2 j
      rw [hgr1] at this
      exact this
    dsimp only
    set sp : ℚ := 0 ⊔ (0 ⊔ (rem1 - rem1 * (3/5))) with hsp
    set nbrs : List ℕ := (if 0 < idx.toNat then [idx.toNat - 1] else []) ++
      (if idx.toNat < bins.length - 1 then [idx.toNat + 1] else []) with hnbrs
    have hspv : sp = rem1 * (2/5) := by
      rw [hsp, max_eq_right (by linarith : (0:ℚ) ≤ rem1 - rem1 * (3/5)),
        max_eq_right (by linarith)]
      ring
    have hsp0 : 0 ≤ sp := by rw [hspv]; linarith
    split
    · rename_i hcnd
      have hnlen : 1 ≤ nbrs.length := by
        rcases Nat.eq_zero_or_pos nbrs.length with hz | hz
        · exact absurd (List.length_eq_zero.mp hz) hcnd.2
        · exact hz
      have hsh : (0:ℚ) ≤ sp / (nbrs.length : ℚ) := by
        apply div_nonneg hsp0
        positivity
      have hns : ∀ n ∈ nbrs, n < bins1.length := by
        rw [hl1]
        exact neighbors_lt idx.toNat bins.length hilt
      have hSp0 := spillNeighbors_spec dune gf dl dc posX (sp / (nbrs.length : ℚ))
        nbrs bins1 (used1 + g1) ctx2 hsh hgf0 hgf1 hns
      rcases hSp : spillNeighbors dune gf dl dc posX (sp / (nbrs.length : ℚ))
        nbrs bins1 (used1 + g1) ctx2 with ⟨bins2, used3, ctx3⟩
      rw [hSp] at hSp0
      dsimp only at hSp0
      have hok2 : CtxOk ctx2 := ⟨by rw [hb2]; linarith, by rw [hb2, hm2]; linarith⟩
      have hmax3 : ctx3.budgetMax = ctx.budgetMax := by
        have h9 := spillNeighbors_ctxOk dune gf dl dc posX (sp / (nbrs.length : ℚ))
          nbrs bins1 (used1 + g1) ctx2 hok2
        rw [hSp] at h9
        dsimp only at h9
        rw [h9.2, hm2]
      have hcancel : sp / (nbrs.length : ℚ) * (nbrs.length : ℚ) = sp :=
        div_mul_cancel₀ _ (Nat.cast_ne_zero.mpr (by omega))
      have hused3 : used3 ≤ granted := by
        have h9 := hSp0.2.2.1
        rw [hcancel] at h9
        rw [hspv] at h9
        linarith
      have hb3 : ctx3.budget = ctx.budget - granted := by
        rw [hSp0.2.2.2.2.2.1, hb2]
      have hfinb : (depositFinish granted used3 ctx3).budget = ctx.budget - used3 := by
        rw [depositFinish_budget granted used3 ctx3 hused3
          (by rw [hb3]; linarith) (by rw [hb3, hmax3]; linarith), hb3]
        ring
      refine ⟨?_, ?_, ?_, ?_, ?_⟩
      · dsimp only
        rw [hfinb, depositFinish_ground]
        have hm9 := hSp0.2.2.2.1
        have hs9 := hSp0.2.1
        linarith
      · dsimp only
        rw [hSp0.1, hl1]
      · dsimp only
        rw [depositFinish_ground, hSp0.2.2.2.2.1, hgl2]
      · intro j
        dsimp only
        exact (hpt1 j).trans (hSp0.2.2.2.2.2.2.1 j)
      · intro j
        dsimp only
        rw [depositFinish_ground]
        exact (hgp2 j).trans (hSp0.2.2.2.2.2.2.2 j)
    · split
      · rename_i hsppos
        rcases hG2 : addToGround dune (sp * gf) dc posX ctx2 with ⟨g2, ctx3⟩
        have hA2 := addToGround_spec dune (sp * gf) dc posX ctx2
        rw [hG2] at hA2
        dsimp only at hA2
        have hg2nn : 0 ≤ g2 := hA2.1
        have hg2le : g2 ≤ sp := by
          have h5 : sp * gf ≤ sp * 1 := mul_le_mul_of_nonneg_left hgf1 hsp0
          have h6 := hA2.2.1
          have h7 : max 0 (sp * gf) = sp * gf := max_eq_right (mul_nonneg hsp0 hgf0)
          rw [h7] at h6
          linarith
        have hb3 : ctx3.budget = ctx.budget - granted := by
          have h4 := addToGround_budget dune (sp * gf) dc posX ctx2
          rw [hG2] at h4
          dsimp only at h4
          rw [h4, hb2]
        have hm3 : ctx3.budgetMax = ctx.budgetMax := by
          have h4 := addToGround_budgetMax dune (sp * gf) dc posX ctx2
          rw [hG2] at h4
          dsimp only at h4
          rw [h4, hm2]
        have hused3 : used1 + g1 + g2 ≤ granted := by
          rw [hspv] at hg2le
          linarith
        have hfinb : (depositFinish granted (used1 + g1 + g2) ctx3).budget
            = ctx.budget - (used1 + g1 + g2) := by
          rw [depositFinish_budget granted (used1 + g1 + g2) ctx3 hused3
            (by rw [hb3]; linarith) (by rw [hb3, hm3]; linarith), hb3]
          ring
        refine ⟨?_, hl1, ?_, hpt1, ?_⟩
        · dsimp only
          rw [hfinb, depositFinish_ground]
          have h9 := hA2.2.2.1
          linarith
        · dsimp only
          rw [depositFinish_ground, hA2.2.2.2.1, hgl2]
        · intro j
          dsimp only
          rw [depositFinish_ground]
          exact (hgp2 j).trans (hA2.2.2.2.2 j)
      · have hused2 : used1 + g1 ≤ granted := by linarith
        have hfinb : (depositFinish granted (used1 + g1) ctx2).budget
            = ctx.budget - (used1 + g1) := by
          rw [depositFinish_budget granted (used1 + g1) ctx2 hused2
            (by rw [hb2]; linarith) (by rw [hb2, hm2]; linarith), hb2]
          ring
        refine ⟨?_, hl1, ?_, hpt1, ?_⟩
        · dsimp only
          rw [hfinb, depositFinish_ground]
          linarith
        · dsimp only
          rw [depositFinish_ground, hgl2]
        · intro j
          dsimp only
          rw [depositFinish_ground]
          exact hgp2 j

theorem addSnowToBins_cap (dune : ℕ → ℚ) (bins : List ℚ) (idx : ℤ)
    (amount gf dl dc : ℚ) (posX : Option ℚ) (ctx : Ctx)
    (hcap : ∀ j, bins.getD j 0 ≤ dl)
    (hgcap : ∀ j, ctx.ground.getD j 0 ≤ capF dune dc j) :
    (∀ j, (addSnowToBins dune bins idx amount gf dl dc posX ctx).1.getD j 0 ≤ dl) ∧
    (∀ j, ((addSnowToBins dune bins idx amount gf dl dc posX ctx).2).ground.getD j 0
      ≤ capF dune dc j) := by
  unfold addSnowToBins
  dsimp only
  split
  · exact ⟨hcap, hgcap⟩
  rcases hE : consumeBudget amount ctx with ⟨granted, ctx1⟩
  have hgr1 : ctx1.ground = ctx.ground := by
    have : (consumeBudget amount ctx).2 = ctx1 := by rw [hE]
    rw [← this, consumeBudget_ground]
  have hgcap1 : ∀ j, ctx1.ground.getD j 0 ≤ capF dune dc j := by
    rw [hgr1]
    exact hgcap
  dsimp only
  split
  · exact ⟨hcap, hgcap1⟩
  split
  · rcases hG : addToGround dune (granted * gf) dc posX ctx1 with ⟨g, ctx2⟩
    have hgc := addToGround_cap dune (granted * gf) dc posX ctx1 hgcap1
    rw [hG] at hgc
    dsimp only at hgc
    refine ⟨hcap, ?_⟩
    intro j
    dsimp only
    rw [refundBudget_ground]
    exact hgc j
  · rcases hS :
      (if 0 < dl - bins.getD idx.toNat 0 then
        (binAdd bins idx.toNat (min granted (dl - bins.getD idx.toNat 0)),
          granted - min granted (dl - bins.getD idx.toNat 0),
          min granted (dl - bins.getD idx.toNat 0))
      else (bins, granted, (0:ℚ))) with ⟨bins1, rem1, used1⟩
    have hcap1 : ∀ j, bins1.getD j 0 ≤ dl := by
      by_cases hc : 0 < dl - bins.getD idx.toNat 0
      · rw [if_pos hc] at hS
        injection hS with h1 h23
        subst h1
        intro j
        exact binAdd_cap bins idx.toNat j _ (fun _ => dl) (hcap j)
          (le_max_of_le_right (min_le_right _ _))
      · rw [if_neg hc] at hS
        injection hS with h1 h23
        subst h1
        exact hcap
    dsimp only
    split
    · refine ⟨hcap1, ?_⟩
      intro j
      dsimp only
      rw [refundBudget_ground, hgr1]
      exact hgcap j
    rcases hG1 : addToGround dune (rem1 * (3/5) * gf) dc posX ctx1 with ⟨g1, ctx2⟩
    have hgc2 := addToGround_cap dune (rem1 * (3/5) * gf) dc posX ctx1 hgcap1
    rw [hG1] at hgc2
    dsimp only at hgc2
    dsimp only
    set sp : ℚ := 0 ⊔ (0 ⊔ (rem1 - rem1 * (3/5))) with hsp
    set nbrs : List ℕ := (if 0 < idx.toNat then [idx.toNat - 1] else []) ++
      (if idx.toNat < bins.length - 1 then [idx.toNat + 1] else []) with hnbrs
    split
    · have hSc := spillNeighbors_cap dune gf dl dc posX (sp / (nbrs.length : ℚ))
        nbrs bins1 (used1 + g1) ctx2 hcap1 hgc2
      rcases hSp : spillNeighbors dune gf dl dc posX (sp / (nbrs.length : ℚ))
        nbrs bins1 (used1 + g1) ctx2 with ⟨bins2, used3, ctx3⟩
      rw [hSp] at hSc
      dsimp only at hSc
      refine ⟨hSc.1, ?_⟩
      intro j
      dsimp only
      rw [depositFinish_ground]
      exact hSc.2 j
    · split
      · rcases hG2 : addToGround dune (sp * gf) dc posX ctx2 with ⟨g2, ctx3⟩
        have hgc3 := addToGround_cap dune (sp * gf) dc posX ctx2 hgc2
        rw [hG2] at hgc3
        dsimp only at hgc3
        refine ⟨hcap1, ?_⟩
        intro j
        dsimp only
        rw [depositFinish_ground]
        exact hgc3 j
      · refine ⟨hcap1, ?_⟩
        intro j
        dsimp only
        rw [depositFinish_ground]
        exact hgc2 j

theorem getD_set_self_g {α : Type} (l : List α) (i : ℕ) (a d : α)
    (h : i < l.length) : (l.set i a).getD i d = a := by
  rw [List.getD_eq_getElem?_getD, List.getElem?_set_self (by omega)]
  simp

theorem getD_set_ne_g {α : Type} (l : List α) (i j : ℕ) (a d : α)
    (h : j ≠ i) : (l.set i a).getD j d = l.getD j d := by
  rw [List.getD_eq_getElem?_getD, List.getElem?_set_ne (by omega),
    ← List.getD_eq_getElem?_getD]

/-- Sum of a tree's layer bin lists. -/
def treeSum (tree : List (List ℚ)) : ℚ := (tree.map List.sum).sum

theorem treeSpillLoop_spec (maxDepth : ℚ) (idx : ℤ) (windBias sideBias : ℚ) :
    ∀ (k : ℕ) (tree : List (List ℚ)) (spill used : ℚ),
      (treeSpillLoop maxDepth idx windBias sideBias k tree spill used).1.length
        = tree.length ∧
      treeSum (treeSpillLoop maxDepth idx windBias sideBias k tree spill used).1
        = treeSum tree
          + ((treeSpillLoop maxDepth idx windBias sideBias k tree spill used).2.2 - used) ∧
      used ≤ (treeSpillLoop maxDepth idx windBias sideBias k tree spill used).2.2 ∧
      (treeSpillLoop maxDepth idx windBias sideBias k tree spill used).2.1
          + (treeSpillLoop maxDepth idx windBias sideBias k tree spill used).2.2
        = spill + used ∧
      (0 ≤ spill →
        0 ≤ (treeSpillLoop maxDepth idx windBias sideBias k tree spill used).2.1) ∧
      (∀ li j, (tree.getD li []).getD j 0
        ≤ (((treeSpillLoop maxDepth idx windBias sideBias k tree spill used).1).getD li []).getD j 0) := by
  intro k
  induction k with
  | zero =>
    intro tree spill used
    refine ⟨rfl, ?_, le_refl _, rfl, ?_, fun li j => le_refl _⟩
    · show treeSum tree = treeSum tree + (used - used)
      ring
    · intro h
      exact h
  | succ k ih =>
    intro tree spill used
    simp only [treeSpillLoop]
    split
    · rename_i hsp
      refine ⟨rfl, ?_, le_refl _, rfl, ?_, fun li j => le_refl _⟩
      · show treeSum tree = treeSum tree + (used - used)
        ring
      · intro h
        exact h
    rename_i hsp
    have hsp' : (0:ℚ) < spill := lt_of_not_ge hsp
    set binsBelow : List ℚ := tree.getD k [] with hbb
    set denom : ℚ := if tree.length - 1 = 0 then 1 else ((tree.length - 1 : ℕ) : ℚ)
      with hdenom
    set dlB : ℚ := maxDepth * (11/20 + (9/20) * ((k : ℚ) / denom)) with hdlB
    set spillIdx : ℤ := clampI 0 ((binsBelow.length : ℤ) - 1)
      (idx + roundJS (windBias * 2 + sideBias)) with hsi
    have hR := addSnowToBinsRaw_spec binsBelow spillIdx spill dlB
    rcases hP : addSnowToBinsRaw binsBelow spillIdx spill dlB with ⟨binsB1, applied⟩
    rw [hP] at hR
    dsimp only at hR
    have happ0 : 0 ≤ applied := hR.2.2.1
    have happle : applied ≤ spill := by
      have := hR.2.2.2.1
      rw [max_eq_right (le_of_lt hsp')] at this
      exact this
    have hsum' : treeSum (tree.set k binsB1) = treeSum tree + applied := by
      rcases lt_or_le k tree.length with hk | hk
      · unfold treeSum
        rw [sum_map_set List.sum [] tree k binsB1 hk]
        rw [← hbb, hR.2.1]
        ring
      · have hset : tree.set k binsB1 = tree := List.set_eq_of_length_le hk
        have hbbe : binsBelow = [] := by
          rw [hbb]
          exact List.getD_eq_default _ _ hk
        have happ : applied = 0 := by
          have h1 := hR.1
          rw [hbbe] at h1
          have h2 : binsB1 = [] := List.length_eq_zero.mp h1
          have h3 := hR.2.1
          rw [hbbe, h2] at h3
          have h4 : (0:ℚ) = applied := by simpa using h3
          linarith
        rw [hset, happ]
        ring
    have hpt' : ∀ li j, (tree.getD li []).getD j 0
        ≤ ((tree.set k binsB1).getD li []).getD j 0 := by
      intro li j
      rcases lt_or_le k tree.length with hk | hk
      · rcases eq_or_ne li k with rfl | hne
        · rw [getD_set_self_g tree li binsB1 [] hk]
          exact hR.2.2.2.2 j
        · rw [getD_set_ne_g tree k li binsB1 [] hne]
      · rw [List.set_eq_of_length_le hk]
    have h0 := ih (tree.set k binsB1) (spill - applied) (used + applied)
    refine ⟨?_, ?_, ?_, ?_, ?_, ?_⟩
    · rw [h0.1, List.length_set]
    · rw [h0.2.1, hsum']
      ring
    · have := h0.2.2.1
      linarith
    · have := h0.2.2.2.1
      linarith
    · intro h
      exact h0.2.2.2.2.1 (by linarith)
    · intro li j
      exact (hpt' li j).trans (h0.2.2.2.2.2 li j)

/-- Ledger relation for a tree deposition result. -/
def TreeLedgerOK (tree0 : List (List ℚ)) (ctx0 : Ctx)
    (r : List (List ℚ) × Ctx) : Prop :=
  r.2.budget + (treeSum r.1 + r.2.ground.sum)
      ≤ ctx0.budget + (treeSum tree0 + ctx0.ground.sum) ∧
    r.1.length = tree0.length ∧
    r.2.ground.length = ctx0.ground.length ∧
    (∀ li j, (tree0.getD li []).getD j 0 ≤ (r.1.getD li []).getD j 0) ∧
    (∀ j, ctx0.ground.getD j 0 ≤ r.2.ground.getD j 0)

set_option maxHeartbeats 3000000 in
theorem addSnowToTreeLayers_ledger (dune : ℕ → ℚ) (maxDepth : ℚ)
    (tree : List (List ℚ)) (layerIndex : ℕ) (idx : ℤ) (amount dl : ℚ)
    (posX : Option ℚ) (windBias : ℚ) (ctx : Ctx)
    (hbud : amount ≤ ctx.budget) (h0 : 0 ≤ ctx.budget)
    (hmax : ctx.budget ≤ ctx.budgetMax) :
    TreeLedgerOK tree ctx (addSnowToTreeLayers dune maxDepth tree layerIndex
      idx amount dl posX windBias ctx) := by
  unfold addSnowToTreeLayers
  dsimp only
  split
  · exact ⟨by dsimp only; linarith, rfl, rfl, fun li j => le_refl _, fun j => le_refl _⟩
  rename_i hamt
  have hamt' : (0:ℚ) < amount := lt_of_not_ge hamt
  have hg := consumeBudget_full amount ctx hamt' hbud
  rcases hE : consumeBudget amount ctx with ⟨granted, ctx1⟩
  have hgr : granted = amount := by rw [← hg, hE]
  subst hgr
  have hE2 : (consumeBudget granted ctx).2 = ctx1 := by rw [hE]
  have hb1 : ctx1.budget = ctx.budget - granted := by
    rw [← hE2, consumeBudget_budget, max_eq_right (by linarith), min_eq_left hbud]
  have hm1 : ctx1.budgetMax = ctx.budgetMax := by
    rw [← hE2, consumeBudget_budgetMax]
  have hgr1 : ctx1.ground = ctx.ground := by
    rw [← hE2, consumeBudget_ground]
  dsimp only
  rw [if_neg (not_le.mpr hamt')]
  have hR := addSnowToBinsRaw_spec (tree.getD layerIndex []) idx granted dl
  rcases hP : addSnowToBinsRaw (tree.getD layerIndex []) idx granted dl
    with ⟨bins1, applied⟩
  rw [hP] at hR
  dsimp only at hR
  have happ0 : 0 ≤ applied := hR.2.2.1
  have happle : applied ≤ granted := by
    have := hR.2.2.2.1
    rw [max_eq_right (le_of_lt hamt')] at this
    exact this
  have hsum1 : treeSum (tree.set layerIndex bins1) = treeSum tree + applied := by
    rcases lt_or_le layerIndex tree.length with hk | hk
    · unfold treeSum
      rw [sum_map_set List.sum [] tree layerIndex bins1 hk, hR.2.1]
      ring
    · have hset : tree.set layerIndex bins1 = tree := List.set_eq_of_length_le hk
      have hbbe : tree.getD layerIndex [] = [] := List.getD_eq_default _ _ hk
      have happ : applied = 0 := by
        have h1 := hR.1
        rw [hbbe] at h1
        have h2 : bins1 = [] := List.length_eq_zero.mp h1
        have h3 := hR.2.1
        rw [hbbe, h2] at h3
        have h4 : (0:ℚ) = applied := by simpa using h3
        linarith
      rw [hset, happ]
      ring
  have hlen1 : (tree.set layerIndex bins1).length = tree.length := List.length_set _ _ _
  have hpt1 : ∀ li j, (tree.getD li []).getD j 0
      ≤ ((tree.set layerIndex bins1).getD li []).getD j 0 := by
    intro li j
    rcases lt_or_le layerIndex tree.length with hk | hk
    · rcases eq_or_ne li layerIndex with rfl | hne
      · rw [getD_set_self_g tree li bins1 [] hk]
        exact hR.2.2.2.2 j
      · rw [getD_set_ne_g tree layerIndex li bins1 [] hne]
    · rw [List.set_eq_of_length_le hk]
  dsimp only
  split
  · rename_i hrem
    set sideBias : ℚ :=
      if (idx : ℚ) < ((tree.getD layerIndex []).length : ℚ) * (1/2) then -(3/5) else 3/5
      with hsb
    have hQ := treeSpillLoop_spec maxDepth idx windBias sideBias layerIndex
      (tree.set layerIndex bins1) ((granted - applied) * (17/20)) applied
    rcases hQe : treeSpillLoop maxDepth idx windBias sideBias layerIndex
      (tree.set layerIndex bins1) ((granted - applied) * (17/20)) applied
      with ⟨tree2, spillRem, used2⟩
    rw [hQe] at hQ
    dsimp only at hQ
    have hrem2v : (0:ℚ) < granted - applied := hrem
    have hspl0 : (0:ℚ) ≤ (granted - applied) * (17/20) := by linarith
    have hsr0 : 0 ≤ spillRem := hQ.2.2.2.2.1 hspl0
    have hused2 : used2 = (granted - applied) * (17/20) + applied - spillRem := by
      have := hQ.2.2.2.1
      linarith
    have htsum2 : treeSum tree2 = treeSum tree + (used2 - applied) + applied := by
      rw [hQ.2.1, hsum1]
      ring
    have hlen2 : tree2.length = tree.length := by rw [hQ.1, hlen1]
    have hpt2 : ∀ li j, (tree.getD li []).getD j 0 ≤ (tree2.getD li []).getD j 0 :=
      fun li j => (hpt1 li j).trans (hQ.2.2.2.2.2 li j)
    have happ0' : 0 ≤ used2 := le_trans happ0 hQ.2.2.1
    dsimp only
    rcases hGa : addToGround dune (spillRem * (9/20)) SNOW_DEFAULT_MAX_DEPTH posX ctx1
      with ⟨ga, ctx2⟩
    have hAa := addToGround_spec dune (spillRem * (9/20)) SNOW_DEFAULT_MAX_DEPTH posX ctx1
    rw [hGa] at hAa
    dsimp only at hAa
    have hga0 : 0 ≤ ga := hAa.1
    have hgale : ga ≤ spillRem := by
      have h6 := hAa.2.1
      rcases le_total (spillRem * (9/20)) 0 with hh | hh
      · rw [max_eq_left hh] at h6
        linarith
      · rw [max_eq_right hh] at h6
        nlinarith
    have hb2 : ctx2.budget = ctx.budget - granted := by
      have h4 := addToGround_budget dune (spillRem * (9/20)) SNOW_DEFAULT_MAX_DEPTH posX ctx1
      rw [hGa] at h4
      dsimp only at h4
      rw [h4, hb1]
    have hm2 : ctx2.budgetMax = ctx.budgetMax := by
      have h4 := addToGround_budgetMax dune (spillRem * (9/20)) SNOW_DEFAULT_MAX_DEPTH posX ctx1
      rw [hGa] at h4
      dsimp only at h4
      rw [h4, hm1]
    have hgs2 : ctx2.ground.sum ≤ ctx.ground.sum + ga := by
      have h7 := hAa.2.2.1
      rw [hgr1] at h7
      exact h7
    have hgl2 : ctx2.ground.length = ctx.ground.length := by
      have := hAa.2.2.2.1
      rw [hgr1] at this
      exact this
    have hgp2 : ∀ j, ctx.ground.getD j 0 ≤ ctx2.ground.getD j 0 := by
      intro j
      have := hAa.2.2.2.2 j
      rw [hgr1] at this
      exact this
    -- the pair (used3, ctx2alt) chosen by the spillRem check
    set mid : ℚ × Ctx := if 0 < spillRem then (used2 + ga, ctx2) else (used2, ctx1)
      with hmid
    have hmidb : mid.2.budget = ctx.budget - granted := by
      rw [hmid]
      split
      · exact hb2
      · exact hb1
    have hmidm : mid.2.budgetMax = ctx.budgetMax := by
      rw [hmid]
      split
      · exact hm2
      · exact hm1
    have hmidgs : mid.2.ground.sum ≤ ctx.ground.sum + (mid.1 - used2) := by
      rw [hmid]
      split
      · dsimp only
        linarith
      · dsimp only
        rw [hgr1]
        linarith
    have hmidgl : mid.2.ground.length = ctx.ground.length := by
      rw [hmid]
      split
      · exact hgl2
      · exact hgr1 ▸ rfl
    have hmidgp : ∀ j, ctx.ground.getD j 0 ≤ mid.2.ground.getD j 0 := by
      intro j
      rw [hmid]
      split
      · exact hgp2 j
      · rw [hgr1]
    have hmidu : used2 ≤ mid.1 ∧ mid.1 ≤ used2 + spillRem := by
      rw [hmid]
      split
      · exact ⟨by dsimp only; linarith, by dsimp only; linarith⟩
      · exact ⟨le_refl _, by dsimp only; linarith⟩
    have hr2pos : (0:ℚ) < granted - applied - (granted - applied) * (17/20) := by
      nlinarith
    rcases hGb : addToGround dune ((granted - applied - (granted - applied) * (17/20)) * (7/20))
      SNOW_DEFAULT_MAX_DEPTH posX mid.2 with ⟨gb, ctx3⟩
    have hAb := addToGround_spec dune ((granted - applied - (granted - applied) * (17/20)) * (7/20))
      SNOW_DEFAULT_MAX_DEPTH posX mid.2
    rw [hGb] at hAb
    dsimp only at hAb
    have hgb0 : 0 ≤ gb := hAb.1
    have hgble : gb ≤ granted - applied - (granted - applied) * (17/20) := by
      have h6 := hAb.2.1
      rw [max_eq_right (by nlinarith)] at h6
      nlinarith
    have hb3 : ctx3.budget = ctx.budget - granted := by
      have h4 := addToGround_budget dune
        ((granted - applied - (granted - applied) * (17/20)) * (7/20))
        SNOW_DEFAULT_MAX_DEPTH posX mid.2
      rw [hGb] at h4
      dsimp only at h4
      rw [h4, hmidb]
    have hm3 : ctx3.budgetMax = ctx.budgetMax := by
      have h4 := addToGround_budgetMax dune
        ((granted - applied - (granted - applied) * (17/20)) * (7/20))
        SNOW_DEFAULT_MAX_DEPTH posX mid.2
      rw [hGb] at h4
      dsimp only at h4
      rw [h4, hmidm]
    have hgs3 : ctx3.ground.sum ≤ ctx.ground.sum + (mid.1 - used2) + gb := by
      have h7 := hAb.2.2.1
      linarith
    have hgl3 : ctx3.ground.length = ctx.ground.length := by
      rw [hAb.2.2.2.1, hmidgl]
    have hgp3 : ∀ j, ctx.ground.getD j 0 ≤ ctx3.ground.getD j 0 :=
      fun j => (hmidgp j).trans (hAb.2.2.2.2 j)
    have hu4le : mid.1 + gb ≤ granted := by
      have h8 := hmidu.2
      nlinarith
    have hu40 : 0 ≤ mid.1 + gb := by linarith [hmidu.1]
    have hfinb : (depositFinish granted (mid.1 + gb) ctx3).budget
        = ctx.budget - (mid.1 + gb) := by
      rw [depositFinish_budget granted (mid.1 + gb) ctx3 hu4le
        (by rw [hb3]; linarith) (by rw [hb3, hm3]; linarith), hb3]
      ring
    dsimp only
    rw [if_pos hr2pos]
    refine ⟨?_, ?_, ?_, ?_, ?_⟩
    · dsimp only
      rw [hfinb, depositFinish_ground]
      have h9 := hmidu.1
      linarith
    · dsimp only
      exact hlen2
    · dsimp only
      rw [depositFinish_ground]
      exact hgl3
    · intro li j
      dsimp only
      exact hpt2 li j
    · intro j
      dsimp only
      rw [depositFinish_ground]
      exact hgp3 j
  · rename_i hrem
    push_neg at hrem
    have happe : applied = granted := le_antisymm happle (by linarith)
    have hfinb : (depositFinish granted applied ctx1).budget
        = ctx.budget - applied := by
      rw [depositFinish_budget granted applied ctx1 happle
        (by rw [hb1]; linarith) (by rw [hb1, hm1]; linarith), hb1]
      ring
    refine ⟨?_, ?_, ?_, ?_, ?_⟩
    · dsimp only
      rw [hfinb, depositFinish_ground, hgr1, hsum1]
      linarith
    · dsimp only
      exact hlen1
    · dsimp only
      rw [depositFinish_ground, hgr1]
    · intro li j
      dsimp only
      exact hpt1 li j
    · intro j
      dsimp only
      rw [depositFinish_ground, hgr1]

theorem nonnegL_iff (l : List ℚ) : nonnegL l = true ↔ ∀ j, 0 ≤ l.getD j 0 := by
  unfold nonnegL
  rw [List.all_eq_true]
  constructor
  · intro h j
    rcases lt_or_le j l.length with hj | hj
    · have hmem : l.getD j 0 ∈ l := by
        rw [List.getD_eq_getElem?_getD, List.getElem?_eq_getElem hj]
        exact List.getElem_mem hj
      exact of_decide_eq_true (h _ hmem)
    · rw [List.getD_eq_default _ _ hj]
  · intro h x hx
    rcases List.getElem_of_mem hx with ⟨j, hj, rfl⟩
    have := h j
    rw [List.getD_eq_getElem?_getD, List.getElem?_eq_getElem hj] at this
    exact decide_eq_true (by simpa using this)

theorem nonnegL_sum (l : List ℚ) (h : nonnegL l = true) : 0 ≤ l.sum := by
  apply List.sum_nonneg
  intro x hx
  unfold nonnegL at h
  rw [List.all_eq_true] at h
  exact of_decide_eq_true (h x hx)

theorem treeNonneg_iff (t : List (List ℚ)) :
    (t.all nonnegL = true) ↔ ∀ li j, 0 ≤ (t.getD li []).getD j 0 := by
  rw [List.all_eq_true]
  constructor
  · intro h li j
    rcases lt_or_le li t.length with hli | hli
    · have hmem : t.getD li [] ∈ t := by
        rw [List.getD_eq_getElem?_getD, List.getElem?_eq_getElem hli]
        exact List.getElem_mem hli
      exact (nonnegL_iff _).mp (h _ hmem) j
    · rw [List.getD_eq_default _ _ hli]
      simp
  · intro h x hx
    rcases List.getElem_of_mem hx with ⟨li, hli, rfl⟩
    apply (nonnegL_iff _).mpr
    intro j
    have := h li j
    rw [List.getD_eq_getElem _ _ hli] at this
    exact this

theorem surfaces_all_nonneg_sum (ls : List (List ℚ))
    (h : ls.all nonnegL = true) : 0 ≤ (ls.map List.sum).sum := by
  apply List.sum_nonneg
  intro x hx
  rcases List.mem_map.mp hx with ⟨l, hl, rfl⟩
  rw [List.all_eq_true] at h
  exact nonnegL_sum l (h l hl)

theorem trees_all_nonneg_sum (ts : List (List (List ℚ)))
    (h : (ts.all fun t => t.all nonnegL) = true) :
    0 ≤ (ts.map fun t => (t.map List.sum).sum).sum := by
  apply List.sum_nonneg
  intro x hx
  rcases List.mem_map.mp hx with ⟨t, ht, rfl⟩
  rw [List.all_eq_true] at h
  exact surfaces_all_nonneg_sum t (h t ht)

/-- The conservation invariant of the world: non-negative pool, fixed
budget cap, total debits covering resident mass, and non-negative bins. -/
def WorldInv (B : ℚ) (w : World) : Prop :=
  0 ≤ w.ctx.budget ∧ w.ctx.budgetMax = B ∧
    w.ctx.budget + worldMass w ≤ B ∧ worldNonneg w = true

theorem worldMass_nonneg (w : World) (h : worldNonneg w = true) :
    0 ≤ worldMass w := by
  unfold worldNonneg at h
  simp only [Bool.and_eq_true] at h
  unfold worldMass
  have h1 := surfaces_all_nonneg_sum w.surfaces h.1.2
  have h2 := trees_all_nonneg_sum w.trees h.2
  have h3 := nonnegL_sum w.ctx.ground h.1.1
  linarith

theorem sum_map_set_eq {α : Type} (f : α → ℚ) (d : α) (l : List α) (s : ℕ)
    (b : α) (hd : f d = 0) (hb : l.length ≤ s → f b = 0) :
    ((l.set s b).map f).sum = (l.map f).sum - f (l.getD s d) + f b := by
  rcases lt_or_le s l.length with h | h
  · exact sum_map_set f d l s b h
  · rw [List.set_eq_of_length_le h, List.getD_eq_default _ _ h, hd, hb h]
    ring

theorem all_set_of_all {α : Type} (p : α → Bool) (l : List α) (s : ℕ) (b : α)
    (hl : l.all p = true) (hb : p b = true) : (l.set s b).all p = true := by
  rw [List.all_eq_true] at hl ⊢
  intro x hx
  rcases List.mem_or_eq_of_mem_set hx with h | h
  · exact hl x h
  · rw [h]; exact hb

theorem all_getD_of_all {α : Type} (p : α → Bool) (l : List α) (d : α) (s : ℕ)
    (hl : l.all p = true) (hd : p d = true) : p (l.getD s d) = true := by
  rcases lt_or_le s l.length with h | h
  · rw [List.getD_eq_getElem _ _ h]
    exact (List.all_eq_true.mp hl) _ (List.getElem_mem h)
  · rw [List.getD_eq_default _ _ h]
    exact hd

theorem applyCall_inv (dune : ℕ → ℚ) (B : ℚ) (w : World) (c : Call)
    (hinv : WorldInv B w)
    (hc : match c with
      | .toBins _ _ amount gf _ _ _ =>
          amount ≤ w.ctx.budget ∧ 0 ≤ gf ∧ gf ≤ 1
      | .toTree _ _ _ amount _ _ _ => amount ≤ w.ctx.budget) :
    WorldInv B (applyCall dune w c) := by
  obtain ⟨hb0, hbm, hmass, hnn⟩ := hinv
  have hmnn := worldMass_nonneg w hnn
  have hble : w.ctx.budget ≤ w.ctx.budgetMax := by
    rw [hbm]; linarith
  have hnn' := hnn
  unfold worldNonneg at hnn'
  simp only [Bool.and_eq_true] at hnn'
  obtain ⟨⟨hgrd, hsurf⟩, htree⟩ := hnn'
  cases c with
  | toBins s idx amount gf dl dc posX =>
    obtain ⟨hbud, hgf0, hgf1⟩ := hc
    have hL := addSnowToBins_ledger dune (w.surfaces.getD s []) idx amount gf
      dl dc posX w.ctx hbud hb0 hble hgf0 hgf1
    have hC := ctxOk_addSnowToBins dune (w.surfaces.getD s []) idx amount gf
      dl dc posX w.ctx ⟨hb0, hble⟩
    rcases hE : addSnowToBins dune (w.surfaces.getD s []) idx amount gf dl dc
      posX w.ctx with ⟨nb, ctx'⟩
    rw [hE] at hL hC
    obtain ⟨hmassL, hlen, hglen, hpt, hgpt⟩ := hL
    unfold applyCall
    dsimp only
    rw [hE]
    have hbnn : nonnegL (w.surfaces.getD s []) = true :=
      all_getD_of_all nonnegL w.surfaces [] s hsurf (by decide)
    have hnbnn : nonnegL nb = true := by
      apply (nonnegL_iff nb).mpr
      intro j
      exact le_trans ((nonnegL_iff _).mp hbnn j) (hpt j)
    have hsumeq : ((w.surfaces.set s nb).map List.sum).sum
        = (w.surfaces.map List.sum).sum - (w.surfaces.getD s []).sum + nb.sum := by
      apply sum_map_set_eq List.sum [] w.surfaces s nb rfl
      intro hs
      have hsb : w.surfaces.getD s [] = [] := List.getD_eq_default _ _ hs
      have h0 : nb.length = 0 := by rw [hlen, hsb]; rfl
      rw [List.length_eq_zero.mp h0]
      rfl
    refine ⟨hC.1.1, by rw [hC.2, hbm], ?_, ?_⟩
    · unfold worldMass at hmass ⊢
      dsimp only at hmass ⊢
      rw [hsumeq]
      dsimp only at hmassL
      linarith
    · unfold worldNonneg
      dsimp only
      rw [Bool.and_eq_true, Bool.and_eq_true]
      refine ⟨⟨?_, ?_⟩, htree⟩
      · apply (nonnegL_iff _).mpr
        intro j
        exact le_trans ((nonnegL_iff _).mp hgrd j) (hgpt j)
      · exact all_set_of_all nonnegL w.surfaces s nb hsurf hnbnn
  | toTree t layerIndex idx amount dl posX windBias =>
    have hbud := hc
    have hL := addSnowToTreeLayers_ledger dune w.maxDepth (w.trees.getD t [])
      layerIndex idx amount dl posX windBias w.ctx hbud hb0 hble
    have hC := ctxOk_addSnowToTreeLayers dune w.maxDepth (w.trees.getD t [])
      layerIndex idx amount dl posX windBias w.ctx ⟨hb0, hble⟩
    rcases hE : addSnowToTreeLayers dune w.maxDepth (w.trees.getD t [])
      layerIndex idx amount dl posX windBias w.ctx with ⟨nt, ctx'⟩
    rw [hE] at hL hC
    obtain ⟨hmassL, hlen, hglen, hpt, hgpt⟩ := hL
    unfold applyCall
    dsimp only
    rw [hE]
    have htnn : (w.trees.getD t []).all nonnegL = true :=
      all_getD_of_all (fun u => u.all nonnegL) w.trees [] t htree (by decide)
    have hntnn : nt.all nonnegL = true := by
      apply (treeNonneg_iff nt).mpr
      intro li j
      exact le_trans ((treeNonneg_iff _).mp htnn li j) (hpt li j)
    have hsumeq : ((w.trees.set t nt).map fun u => (u.map List.sum).sum).sum
        = (w.trees.map fun u => (u.map List.sum).sum).sum
            - ((w.trees.getD t []).map List.sum).sum + (nt.map List.sum).sum := by
      apply sum_map_set_eq (fun u => (u.map List.sum).sum) [] w.trees t nt rfl
      intro hs
      have hsb : w.trees.getD t [] = [] := List.getD_eq_default _ _ hs
      have h0 : nt.length = 0 := by rw [hlen, hsb]; rfl
      rw [List.length_eq_zero.mp h0]
      rfl
    refine ⟨hC.1.1, by rw [hC.2, hbm], ?_, ?_⟩
    · unfold worldMass at hmass ⊢
      dsimp only at hmass ⊢
      rw [hsumeq]
      unfold treeSum at hmassL
      dsimp only at hmassL
      linarith
    · unfold worldNonneg
      dsimp only
      rw [Bool.and_eq_true, Bool.and_eq_true]
      refine ⟨⟨?_, hsurf⟩, ?_⟩
      · apply (nonnegL_iff _).mpr
        intro j
        exact le_trans ((nonnegL_iff _).mp hgrd j) (hgpt j)
      · exact all_set_of_all (fun u => u.all nonnegL) w.trees t nt htree hntnn

theorem runCalls_inv (dune : ℕ → ℚ) (B : ℚ) (w : World) (calls : List Call)
    (hinv : WorldInv B w) (hok : callsOK dune w calls = true) :
    WorldInv B (runCalls dune w calls) := by
  induction calls generalizing w with
  | nil => exact hinv
  | cons c cs ih =>
    have key : WorldInv B (applyCall dune w c) ∧
        callsOK dune (applyCall dune w c) cs = true := by
      cases c with
      | toBins s idx amount gf dl dc posX =>
        have hok' : (decide (amount ≤ w.ctx.budget) && decide (0 ≤ gf) &&
            decide (gf ≤ 1) &&
            callsOK dune (applyCall dune w (.toBins s idx amount gf dl dc posX))
              cs) = true := hok
        rw [Bool.and_eq_true, Bool.and_eq_true, Bool.and_eq_true] at hok'
        refine ⟨applyCall_inv dune B w _ hinv ?_, hok'.2⟩
        exact ⟨of_decide_eq_true hok'.1.1.1, of_decide_eq_true hok'.1.1.2,
          of_decide_eq_true hok'.1.2⟩
      | toTree t li idx amount dl posX wb =>
        have hok' : (decide (amount ≤ w.ctx.budget) &&
            callsOK dune (applyCall dune w
              (.toTree t li idx amount dl posX wb)) cs) = true := hok
        rw [Bool.and_eq_true] at hok'
        exact ⟨applyCall_inv dune B w _ hinv (of_decide_eq_true hok'.1),
          hok'.2⟩
    show WorldInv B (runCalls dune (applyCall dune w c) cs)
    exact ih (applyCall dune w c) key.1 key.2

/-- C1 (amended): with erosion disabled, after any sequence of deposition
calls starting from a full budget, zero resident mass and non-negative bins,
where each call requests at most the then-available budget and each surface
call uses a ground factor in [0, 1]: the budget cap is unchanged, the pool
stays non-negative, every bin stays non-negative, and budgetMax - budget is
an upper bound on the total mass resident across all height-field bins.
Equality does not hold in general: the ground ring spread debits the full
reported deposit while discarding the decayed ring remainders, so the debit
can strictly exceed the resident mass. -/
theorem mass_budget_ledger (dune : ℕ → ℚ) (w : World) (calls : List Call)
    (hfull : w.ctx.budget = w.ctx.budgetMax) (h0 : 0 ≤ w.ctx.budget)
    (hzero : worldMass w = 0) (hnn : worldNonneg w = true)
    (hok : callsOK dune w calls = true) :
    worldMass (runCalls dune w calls)
        ≤ w.ctx.budgetMax - (runCalls dune w calls).ctx.budget ∧
      (runCalls dune w calls).ctx.budgetMax = w.ctx.budgetMax ∧
      0 ≤ (runCalls dune w calls).ctx.budget ∧
      worldNonneg (runCalls dune w calls) = true := by
  have hinv : WorldInv w.ctx.budgetMax w :=
    ⟨h0, rfl, by rw [hzero, hfull]; ring_nf; exact le_refl _, hnn⟩
  obtain ⟨a, b, cc, d⟩ := runCalls_inv dune w.ctx.budgetMax w calls hinv hok
  exact ⟨by linarith, b, a, d⟩

/-- World used in the C1 witness and counterexample: ample budget, a single
three-bin roof surface, no trees, three empty ground bins. -/
def cWorld : World :=
  { ctx := cCtx, maxDepth := 36, surfaces := [[0, 0, 0]], trees := [] }

theorem mass_budget_ledger_witness :
    cWorld.ctx.budget = cWorld.ctx.budgetMax ∧ 0 ≤ cWorld.ctx.budget ∧
      worldMass cWorld = 0 ∧ worldNonneg cWorld = true ∧
      callsOK dune0 cWorld [Call.toBins 0 1 50 1 10 40 none] = true ∧
      (worldMass (runCalls dune0 cWorld [Call.toBins 0 1 50 1 10 40 none])
          ≤ cWorld.ctx.budgetMax
            - (runCalls dune0 cWorld
                [Call.toBins 0 1 50 1 10 40 none]).ctx.budget ∧
        (runCalls dune0 cWorld
            [Call.toBins 0 1 50 1 10 40 none]).ctx.budgetMax
          = cWorld.ctx.budgetMax ∧
        0 ≤ (runCalls dune0 cWorld
            [Call.toBins 0 1 50 1 10 40 none]).ctx.budget ∧
        worldNonneg (runCalls dune0 cWorld
            [Call.toBins 0 1 50 1 10 40 none]) = true) := by
  have h1 : cWorld.ctx.budget = cWorld.ctx.budgetMax := by
    norm_num +decide [cWorld, cCtx]
  have h2 : (0:ℚ) ≤ cWorld.ctx.budget := by norm_num +decide [cWorld, cCtx]
  have h3 : worldMass cWorld = 0 := by
    norm_num +decide [worldMass, cWorld, cCtx]
  have h4 : worldNonneg cWorld = true := by
    norm_num +decide [worldNonneg, nonnegL, cWorld, cCtx]
  have h5 : callsOK dune0 cWorld [Call.toBins 0 1 50 1 10 40 none] = true := by
    norm_num +decide [callsOK, cWorld, cCtx]
  exact ⟨h1, h2, h3, h4, h5,
    mass_budget_ledger dune0 cWorld [Call.toBins 0 1 50 1 10 40 none]
      h1 h2 h3 h4 h5⟩

/-- C1 counterexample: from a full budget and zero resident mass, a single
in-budget surface deposit with ground factor 1 and a small ground depth cap
leaves budgetMax - budget strictly above the resident mass: the ground ring
spread debits the whole reported deposit but discards the decayed ring
remainders. -/
theorem mass_budget_counterexample :
    cWorld.ctx.budget = cWorld.ctx.budgetMax ∧ 0 ≤ cWorld.ctx.budget ∧
      worldMass cWorld = 0 ∧ worldNonneg cWorld = true ∧
      callsOK dune0 cWorld [Call.toBins 0 1 50 1 10 2 none] = true ∧
      cWorld.ctx.budgetMax
          - (runCalls dune0 cWorld [Call.toBins 0 1 50 1 10 2 none]).ctx.budget
        ≠ worldMass (runCalls dune0 cWorld [Call.toBins 0 1 50 1 10 2 none]) := by
  refine ⟨?_, ?_, ?_, ?_, ?_, ?_⟩ <;>
    norm_num +decide [worldMass, worldNonneg, nonnegL, callsOK, runCalls,
      applyCall, addSnowToBins, consumeBudget, addToGround, addToGroundAux,
      depositTargets, ringTargets, groundCenter, capF, binAdd, clamp, clampI,
      roundJS, refundBudget, depositFinish, spillNeighbors, dune0, cWorld, cCtx]

-- Claim C5: bounds under erosion and drift

theorem erodeBinsLoop_bounds (rand : ℕ → ℚ) (off erosion : ℚ) (capG : ℕ → ℚ)
    (he : ∀ i, 0 ≤ erosion * (off + rand i)) (is : List ℕ) :
    ∀ (bins : List ℚ) (ctx : Ctx) (rt : ℚ),
      (∀ j, 0 ≤ bins.getD j 0 ∧ bins.getD j 0 ≤ capG j) →
      ∀ j, 0 ≤ (erodeBinsLoop rand off erosion is bins ctx rt).1.getD j 0 ∧
        (erodeBinsLoop rand off erosion is bins ctx rt).1.getD j 0 ≤ capG j := by
  induction is with
  | nil =>
    intro bins ctx rt h
    exact h
  | cons i is ih =>
    intro bins ctx rt h
    have hstep : ∀ j,
        0 ≤ (bins.set i
          (max 0 (bins.getD i 0 - erosion * (off + rand i)))).getD j 0 ∧
        (bins.set i
          (max 0 (bins.getD i 0 - erosion * (off + rand i)))).getD j 0
          ≤ capG j := by
      intro j
      rcases eq_or_ne j i with rfl | hne
      · rcases lt_or_le j bins.length with hl | hl
        · rw [getD_set_self bins j _ hl]
          refine ⟨le_max_left _ _, ?_⟩
          rw [max_le_iff]
          have h1 := (h j).1
          have h2 := (h j).2
          have h3 := he j
          exact ⟨le_trans h1 h2, by linarith⟩
        · rw [List.set_eq_of_length_le hl]
          exact h j
      · rw [getD_set_ne bins i j _ hne]
        exact h j
    simp only [erodeBinsLoop]
    split
    · exact ih _ _ _ hstep
    · exact ih _ _ _ hstep

theorem erodeBins_bounds (rand : ℕ → ℚ) (off erosion : ℚ) (capG : ℕ → ℚ)
    (bins : List ℚ) (ctx : Ctx)
    (he : ∀ i, 0 ≤ erosion * (off + rand i))
    (h : ∀ j, 0 ≤ bins.getD j 0 ∧ bins.getD j 0 ≤ capG j) :
    ∀ j, 0 ≤ (erodeBins rand off erosion bins ctx).1.getD j 0 ∧
      (erodeBins rand off erosion bins ctx).1.getD j 0 ≤ capG j := by
  unfold erodeBins
  exact erodeBinsLoop_bounds rand off erosion capG he _ bins ctx 0 h

theorem driftPassRight_nonneg (jit : ℕ → ℚ) (flow : ℚ) (bins : List ℚ)
    (hf : 0 ≤ flow) (hj : ∀ i, 0 ≤ jit i)
    (h : ∀ j, 0 ≤ bins.getD j 0) :
    ∀ j, 0 ≤ (driftPassRight jit flow bins).getD j 0 := by
  unfold driftPassRight
  refine foldl_preserve (fun b : List ℚ => ∀ j, 0 ≤ b.getD j 0) _ ?_ _ bins h
  intro b i hb j
  have hbi : 0 ≤ b.getD i 0 := hb i
  have hmv0 : 0 ≤ min (b.getD i 0) (b.getD i 0 * flow * jit i) :=
    le_min hbi (mul_nonneg (mul_nonneg hbi hf) (hj i))
  have hmvle : min (b.getD i 0) (b.getD i 0 * flow * jit i) ≤ b.getD i 0 :=
    min_le_left _ _
  apply le_trans _ (binAdd_getD_le _ (i + 1) j _ hmv0)
  rcases eq_or_ne j i with rfl | hne
  · rcases lt_or_le j b.length with hl | hl
    · rw [getD_set_self b j _ hl]
      linarith
    · rw [List.set_eq_of_length_le hl]
      exact hb j
  · rw [getD_set_ne b i j _ hne]
    exact hb j

theorem driftPassLeft_nonneg (jit : ℕ → ℚ) (flow : ℚ) (bins : List ℚ)
    (hf : 0 ≤ flow) (hj : ∀ i, 0 ≤ jit i)
    (h : ∀ j, 0 ≤ bins.getD j 0) :
    ∀ j, 0 ≤ (driftPassLeft jit flow bins).getD j 0 := by
  unfold driftPassLeft
  refine foldl_preserve (fun b : List ℚ => ∀ j, 0 ≤ b.getD j 0) _ ?_ _ bins h
  intro b i hb j
  have hbi : 0 ≤ b.getD i 0 := hb i
  have hmv0 : 0 ≤ min (b.getD i 0) (b.getD i 0 * flow * jit i) :=
    le_min hbi (mul_nonneg (mul_nonneg hbi hf) (hj i))
  have hmvle : min (b.getD i 0) (b.getD i 0 * flow * jit i) ≤ b.getD i 0 :=
    min_le_left _ _
  apply le_trans _ (binAdd_getD_le _ (i - 1) j _ hmv0)
  rcases eq_or_ne j i with rfl | hne
  · rcases lt_or_le j b.length with hl | hl
    · rw [getD_set_self b j _ hl]
      linarith
    · rw [List.set_eq_of_length_le hl]
      exact hb j
  · rw [getD_set_ne b i j _ hne]
    exact hb j

theorem slopePass_nonneg (slopeLimit : ℚ) (bins : List ℚ)
    (hs : 0 ≤ slopeLimit) (h : ∀ j, 0 ≤ bins.getD j 0) :
    ∀ j, 0 ≤ (slopePass slopeLimit bins).getD j 0 := by
  unfold slopePass
  refine foldl_preserve (fun b : List ℚ => ∀ j, 0 ≤ b.getD j 0) _ ?_ _ bins h
  intro b i hb j
  by_cases hd : |b.getD i 0 - b.getD (i + 1) 0| ≤ slopeLimit
  · rw [if_pos hd]
    exact hb j
  rw [if_neg hd]
  have habs : slopeLimit < |b.getD i 0 - b.getD (i + 1) 0| := lt_of_not_ge hd
  have hsl0 : 0 ≤ (|b.getD i 0 - b.getD (i + 1) 0| - slopeLimit) * (9/20) := by
    have := le_of_lt habs
    nlinarith
  by_cases hpos : 0 < b.getD i 0 - b.getD (i + 1) 0
  · rw [if_pos hpos]
    have habs2 : |b.getD i 0 - b.getD (i + 1) 0|
        = b.getD i 0 - b.getD (i + 1) 0 := abs_of_pos hpos
    apply le_trans _ (binAdd_getD_le _ (i + 1) j _ hsl0)
    rcases eq_or_ne j i with rfl | hne
    · rcases lt_or_le j b.length with hl | hl
      · rw [getD_set_self b j _ hl]
        have h1 := hb (j + 1)
        rw [habs2]
        nlinarith
      · rw [List.set_eq_of_length_le hl]
        exact hb j
    · rw [getD_set_ne b i j _ hne]
      exact hb j
  · rw [if_neg hpos]
    have hneg : b.getD i 0 - b.getD (i + 1) 0 ≤ 0 := le_of_not_lt hpos
    have habs2 : |b.getD i 0 - b.getD (i + 1) 0|
        = -(b.getD i 0 - b.getD (i + 1) 0) := abs_of_nonpos hneg
    set b1 := b.set i (b.getD i 0
      + (|b.getD i 0 - b.getD (i + 1) 0| - slopeLimit) * (9/20)) with hb1
    have hb1nn : ∀ k, 0 ≤ b1.getD k 0 := by
      intro k
      rcases eq_or_ne k i with rfl | hne
      · rcases lt_or_le k b.length with hl | hl
        · rw [hb1, getD_set_self b k _ hl]
          have := hb k
          linarith
        · rw [hb1, List.set_eq_of_length_le hl]
          exact hb k
      · rw [hb1, getD_set_ne b i k _ hne]
        exact hb k
    rcases eq_or_ne j (i + 1) with rfl | hne1
    · rcases lt_or_le (i + 1) b1.length with hl | hl
      · rw [binAdd_getD_self b1 (i + 1) _ hl]
        have hji : i + 1 ≠ i := by omega
        rw [hb1, getD_set_ne b i (i + 1) _ hji]
        have h1 := hb i
        rw [habs2]
        nlinarith
      · rw [binAdd_sum_oob b1 (i + 1) _ hl]
        exact hb1nn (i + 1)
    · rw [binAdd_getD_ne b1 (i + 1) j _ hne1]
      exact hb1nn j

theorem updateGroundDrift_nonneg (jit : ℕ → ℚ)
    (windX maxPush gustBoost dt : ℚ) (bins : List ℚ)
    (hdt : 0 ≤ dt) (hj : ∀ i, 0 ≤ jit i)
    (h : ∀ j, 0 ≤ bins.getD j 0) :
    ∀ j, 0 ≤ (updateGroundDrift jit windX maxPush gustBoost dt bins).getD j 0 := by
  unfold updateGroundDrift
  dsimp only
  set mpe := (if maxPush = 0 then (1:ℚ) else maxPush) with hmpe
  set strength := clamp 0 1 ((|windX| / mpe) * (8/5) + gustBoost * (3/5))
    with hstr
  have hst0 : 0 ≤ strength := by
    rw [hstr]
    unfold clamp
    exact le_min (by norm_num) (le_max_left _ _)
  have hf : 0 ≤ strength * dt * (26/5) := by positivity
  have hsl : 0 ≤ 11/10 + strength * (24/5) := by positivity
  split
  · exact h
  apply slopePass_nonneg _ _ hsl
  split
  · exact driftPassRight_nonneg jit _ bins hf hj h
  · exact driftPassLeft_nonneg jit _ bins hf hj h

/-- Constant interpretation of the drift jitter 0.65 + 0.35 * noise
(noise value 0). -/
def jit0 : ℕ → ℚ := fun _ => 13/20

/-- C5 (amended): deposition and erosion preserve the per-bin bounds: under
addSnowToBins, surface bins stay in [0, depthLimit] and ground bins in
[0, capF]; the erosion loop keeps any bin field within [0, cap] for every
per-bin cap dominating its input; and the ground-drift pass preserves
non-negativity.  Drift does NOT preserve the upper bound: its dune
migration can push a ground bin above the dune cap (see the
counterexample), so the original all-operations claim fails. -/
theorem bin_value_bounds (dune rand jit : ℕ → ℚ) (capG : ℕ → ℚ)
    (bins ebins gbins : List ℚ) (idx : ℤ)
    (amount gf dl dc off erosion windX maxPush gustBoost dt : ℚ)
    (posX : Option ℚ) (ctx ectx : Ctx)
    (hbud : amount ≤ ctx.budget) (h0 : 0 ≤ ctx.budget)
    (hmax : ctx.budget ≤ ctx.budgetMax) (hgf0 : 0 ≤ gf) (hgf1 : gf ≤ 1)
    (hbins : ∀ j, 0 ≤ bins.getD j 0 ∧ bins.getD j 0 ≤ dl)
    (hg : ∀ j, 0 ≤ ctx.ground.getD j 0 ∧ ctx.ground.getD j 0 ≤ capF dune dc j)
    (he : ∀ i, 0 ≤ erosion * (off + rand i))
    (hebins : ∀ j, 0 ≤ ebins.getD j 0 ∧ ebins.getD j 0 ≤ capG j)
    (hdt : 0 ≤ dt) (hj : ∀ i, 0 ≤ jit i)
    (hgbins : ∀ j, 0 ≤ gbins.getD j 0) :
    (∀ j, 0 ≤ (addSnowToBins dune bins idx amount gf dl dc posX ctx).1.getD j 0
      ∧ (addSnowToBins dune bins idx amount gf dl dc posX ctx).1.getD j 0
          ≤ dl) ∧
    (∀ j, 0 ≤ ((addSnowToBins dune bins idx amount gf dl dc posX
          ctx).2).ground.getD j 0
      ∧ ((addSnowToBins dune bins idx amount gf dl dc posX
          ctx).2).ground.getD j 0 ≤ capF dune dc j) ∧
    (∀ j, 0 ≤ (erodeBins rand off erosion ebins ectx).1.getD j 0
      ∧ (erodeBins rand off erosion ebins ectx).1.getD j 0 ≤ capG j) ∧
    (∀ j, 0 ≤ (updateGroundDrift jit windX maxPush gustBoost dt
        gbins).getD j 0) := by
  have hcap := addSnowToBins_cap dune bins idx amount gf dl dc posX ctx
    (fun j => (hbins j).2) (fun j => (hg j).2)
  obtain ⟨hm, hlen, hglen, hpt, hgpt⟩ :=
    addSnowToBins_ledger dune bins idx amount gf dl dc posX ctx
      hbud h0 hmax hgf0 hgf1
  refine ⟨?_, ?_,
    erodeBins_bounds rand off erosion capG ebins ectx he hebins,
    updateGroundDrift_nonneg jit windX maxPush gustBoost dt gbins hdt hj
      hgbins⟩
  · intro j
    exact ⟨le_trans (hbins j).1 (hpt j), hcap.1 j⟩
  · intro j
    exact ⟨le_trans (hg j).1 (hgpt j), hcap.2 j⟩

theorem bin_value_bounds_witness :
    (∀ j, 0 ≤ (addSnowToBins dune0 [0, 0, 0] 1 50 1 10 40 none cCtx).1.getD j 0
      ∧ (addSnowToBins dune0 [0, 0, 0] 1 50 1 10 40 none cCtx).1.getD j 0
          ≤ 10) ∧
    (∀ j, 0 ≤ ((addSnowToBins dune0 [0, 0, 0] 1 50 1 10 40 none
          cCtx).2).ground.getD j 0
      ∧ ((addSnowToBins dune0 [0, 0, 0] 1 50 1 10 40 none
          cCtx).2).ground.getD j 0 ≤ capF dune0 40 j) ∧
    (∀ j, 0 ≤ (erodeBins dune0 (1/2) (1/10) [1, 1] cCtx).1.getD j 0
      ∧ (erodeBins dune0 (1/2) (1/10) [1, 1] cCtx).1.getD j 0
          ≤ (fun _ : ℕ => (5:ℚ)) j) ∧
    (∀ j, 0 ≤ (updateGroundDrift jit0 1 1 0 1 [1, 1]).getD j 0) :=
  bin_value_bounds dune0 dune0 jit0 (fun _ => 5) [0, 0, 0] [1, 1] [1, 1] 1
    50 1 10 40 (1/2) (1/10) 1 1 0 1 none cCtx cCtx
    (by norm_num [cCtx]) (by norm_num [cCtx]) (by norm_num [cCtx])
    (by norm_num) (by norm_num)
    (by
      intro j
      rcases j with _ | _ | _ | j <;>
        norm_num [List.getD_cons_zero, List.getD_cons_succ, List.getD_nil])
    (by
      intro j
      have hcf : (0:ℚ) ≤ capF dune0 40 j := by
        norm_num [capF, dune0]
      rcases j with _ | _ | _ | j <;>
        simp [cCtx, List.getD_cons_zero, List.getD_cons_succ,
          List.getD_nil] <;>
        norm_num [capF, dune0])
    (by
      intro i
      norm_num [dune0])
    (by
      intro j
      rcases j with _ | _ | j <;>
        norm_num [List.getD_cons_zero, List.getD_cons_succ, List.getD_nil])
    (by norm_num)
    (by
      intro i
      norm_num [jit0])
    (by
      intro j
      rcases j with _ | _ | j <;>
        norm_num [List.getD_cons_zero, List.getD_cons_succ, List.getD_nil])

/-- C5 counterexample: the ground-drift pass violates the upper cap: with
both ground bins exactly at the dune cap 261/5 (the value of capF at depth
cap 36 under the constant noise interpretation), full wind strength moves
the whole first bin onto the second and the slope relaxation then leaves
bin 1 at 2403/40 = 60.075 > 52.2, so updateGroundDrift does not preserve
bin <= cap. -/
theorem bin_value_bounds_counterexample :
    (∀ j, (([261/5, 261/5] : List ℚ)).getD j 0 ≤ capF dune0 36 j) ∧
      (∀ j, 0 ≤ (([261/5, 261/5] : List ℚ)).getD j 0) ∧
      ¬ ((updateGroundDrift jit0 1 1 0 1 [261/5, 261/5]).getD 1 0
          ≤ capF dune0 36 1) := by
  refine ⟨?_, ?_, ?_⟩
  · intro j
    rcases j with _ | _ | j <;>
      norm_num [capF, dune0, List.getD_cons_zero, List.getD_cons_succ,
        List.getD_nil]
  · intro j
    rcases j with _ | _ | j <;>
      norm_num [List.getD_cons_zero, List.getD_cons_succ, List.getD_nil]
  · norm_num +decide [updateGroundDrift, driftPassRight, driftPassLeft,
      slopePass, binAdd, clamp, capF, dune0, jit0, List.range_succ,
      List.range_zero, List.getD_cons_zero, List.getD_cons_succ,
      List.getD_nil, abs_of_nonneg, abs_of_nonpos]
